import Mathlib

/-!
Verification of the readaloud serverless handler core: text cleaning and
segmentation (`src/serverless/handler/utils/cleaning.py`), the heuristic
word-timing estimator (`src/serverless/handler/utils/alignment.py`), and the
`synthesize_chunk` orchestration (`src/serverless/handler/main.py`,
`src/serverless/handler/utils/model_loader.py`), shallowly embedded over
`List Char`.

Conventions: Python strings are `List Char`; Python `int` is `Int` (or `Nat`
where the source value is provably non-negative); all arithmetic that the
source performs through floats (`int(x / y * z)` style expressions) is exact
for the magnitudes involved and embedded as exact integer floor/truncation;
external effects (model loading, the bounded thread-pool executor, wall-clock
timeouts) are represented by explicit outcome values.
-/

namespace ReadAloud

/-- Models Python's `str.isspace()` / regex `\s` (unicode) character class:
space, tab, newline, carriage return, vertical tab, form feed, the file/group/
record/unit separators, next-line, no-break space and the Unicode space
code points. Exact on the code points this code base manipulates. -/
def pyIsSpace (c : Char) : Bool :=
  c = ' ' || c = '\t' || c = '\n' || c = '\r' || c.val = 0x0b || c.val = 0x0c ||
  (0x1c ≤ c.val && c.val ≤ 0x1f) || c.val = 0x85 || c.val = 0xa0 ||
  c.val = 0x1680 || (0x2000 ≤ c.val && c.val ≤ 0x200a) ||
  c.val = 0x2028 || c.val = 0x2029 || c.val = 0x202f || c.val = 0x205f ||
  c.val = 0x3000

/-- Models Python's regex `\d` restricted to ASCII decimal digits (the inputs
this code base feeds to `\d` are ASCII). -/
def pyIsDigit (c : Char) : Bool :=
  '0' ≤ c && c ≤ '9'

/-- Models Python's regex `\w` (unicode): exact on ASCII (letters, digits,
underscore); non-ASCII code points are treated as word characters unless they
are whitespace, which agrees with Python on the letters (including CJK)
exercised by this code base. -/
def pyIsWord (c : Char) : Bool :=
  ('a' ≤ c && c ≤ 'z') || ('A' ≤ c && c ≤ 'Z') || pyIsDigit c || c = '_' ||
  (0x80 ≤ c.val && !pyIsSpace c)

/-- Remove a maximal all-whitespace suffix: the recursive form of
`reverse ∘ dropWhile isspace ∘ reverse`. -/
def dropTrailingSpace : List Char → List Char
  | [] => []
  | c :: rest =>
    let r := dropTrailingSpace rest
    if r = [] && pyIsSpace c then [] else c :: r

/-- Python `str.strip()`: remove leading and trailing whitespace. -/
def pyStrip (s : List Char) : List Char :=
  dropTrailingSpace (s.dropWhile pyIsSpace)

/-- The blank-line separator `"\n\n"` used to join paragraphs and merged
chunks. -/
def nlnl : List Char := ['\n', '\n']

/-- `startsWithSeq pat s`: `s` begins with the character sequence `pat`. -/
def startsWithSeq : List Char → List Char → Bool
  | [], _ => true
  | _ :: _, [] => false
  | p :: ps, c :: cs => p = c && startsWithSeq ps cs

/-- `containsSeq pat s`: `pat` occurs as a contiguous substring of `s`. -/
def containsSeq (pat : List Char) : List Char → Bool
  | [] => startsWithSeq pat []
  | c :: cs => startsWithSeq pat (c :: cs) || containsSeq pat cs

/-- Python `"\n\n".join(...)`. -/
def joinNl (parts : List (List Char)) : List Char :=
  List.intercalate nlnl parts

/-- Python `" ".join(...)`. -/
def joinSp (parts : List (List Char)) : List Char :=
  List.intercalate [' '] parts

/-- Python `"\n".join(...)`. -/
def joinLines (parts : List (List Char)) : List Char :=
  List.intercalate ['\n'] parts

/-- Python `str.split()` (no argument): maximal runs of non-whitespace,
discarding all whitespace; never yields empty words. -/
def pySplitWs : List Char → List (List Char) :=
  go []
where
  /-- `cur` is the (reversed) word currently being accumulated. -/
  go : List Char → List Char → List (List Char)
    | cur, [] => if cur = [] then [] else [cur.reverse]
    | cur, c :: rest =>
      if pyIsSpace c then
        if cur = [] then go [] rest else cur.reverse :: go [] rest
      else go (c :: cur) rest

section Alignment

/-!
## `utils/alignment.py`
-/

/-- One entry of the timings list produced by `align_words_ctc`
(`utils/alignment.py` lines 47-55): the dict
`{word, start_ms, end_ms, char_start, char_end}`. -/
structure Timing where
  word : List Char
  start_ms : Int
  end_ms : Int
  char_start : Nat
  char_end : Nat
deriving DecidableEq, Repr

/-- `_tokenize_with_spans` (`utils/alignment.py` lines 8-18):
`re.finditer(r"\b\w+\b", text)` yields the maximal runs of `\w` characters
together with their character offsets `(word, char_start, char_end)`. -/
def tokenizeWithSpans (text : List Char) : List (List Char × Nat × Nat) :=
  go 0 0 text
where
  /-- `skip` counts characters belonging to an already-emitted token that
  still have to be consumed; `pos` is the index of the head of `rest` in the
  original string. -/
  go : Nat → Nat → List Char → List (List Char × Nat × Nat)
    | _, _, [] => []
    | skip + 1, pos, _ :: rest => go skip (pos + 1) rest
    | 0, pos, c :: rest =>
      if pyIsWord c then
        let run := rest.takeWhile pyIsWord
        (c :: run, pos, pos + 1 + run.length) :: go run.length (pos + 1) rest
      else go 0 (pos + 1) rest

/-- The core of `align_words_ctc` (`utils/alignment.py` lines 38-62), after
the audio duration has been computed: tokenize the transcript, return `[]` on
zero tokens or non-positive duration, otherwise give token `i` the span
`start_ms = int(i * duration_ms / n)`, `end_ms = int((i+1) * duration_ms / n)`
(exact truncation; all values are non-negative here, so truncation is floor),
then clamp every `end_ms` to be `≥ start_ms` and `≤ duration_ms` (lines
56-61). -/
def alignFromDuration (transcript : List Char) (durationMs : Int) : List Timing :=
  let tokens := tokenizeWithSpans transcript
  let n := tokens.length
  if n = 0 ∨ durationMs ≤ 0 then []
  else
    let timings := tokens.enum.map (fun it =>
      ({ word := it.2.1
         start_ms := (it.1 : Int) * durationMs / (n : Int)
         end_ms := ((it.1 : Int) + 1) * durationMs / (n : Int)
         char_start := it.2.2.1
         char_end := it.2.2.2 } : Timing))
    timings.map (fun (t : Timing) =>
      let e1 := if t.end_ms < t.start_ms then t.start_ms else t.end_ms
      let e2 := if durationMs < e1 then durationMs else e1
      { t with end_ms := e2 })

/-- `align_words_ctc` (`utils/alignment.py` lines 21-62): the audio buffer is
represented by its sample list; `duration_ms = int(len(audio_pcm) /
max(1, sample_rate) * 1000)` is embedded as the exact floor of the same
rational value. The `audio_pcm is None` guard is dropped because the handler
always passes a concrete buffer. -/
def alignWordsCtc (transcript : List Char) (audioLen : Nat) (sampleRate : Int) :
    List Timing :=
  if sampleRate ≤ 0 then []
  else
    let durationMs : Int := (audioLen : Int) * 1000 / max 1 sampleRate
    alignFromDuration transcript durationMs

/-- The heuristic timing assignment exactly as the specification words it:
token `i` (0-based) of `n` receives `start_ms = ⌊i·D/n⌋` and
`end_ms = ⌊(i+1)·D/n⌋`, each endpoint computed independently, and afterwards
each `end_ms` is clamped to be `≥ start_ms` and `≤ D`; zero tokens or
non-positive duration give the empty result. To be compared with
`alignFromDuration`, which is translated from the source. -/
def specHeuristicTimings (transcript : List Char) (durationMs : Int) : List Timing :=
  let tokens := tokenizeWithSpans transcript
  let n := tokens.length
  if n = 0 ∨ durationMs ≤ 0 then []
  else
    tokens.enum.map (fun it =>
      let s := (it.1 : Int) * durationMs / (n : Int)
      let e0 := ((it.1 : Int) + 1) * durationMs / (n : Int)
      let e1 := if e0 < s then s else e0
      ({ word := it.2.1
         start_ms := s
         end_ms := if durationMs < e1 then durationMs else e1
         char_start := it.2.2.1
         char_end := it.2.2.2 } : Timing))

theorem alignFromDuration_eq_spec (transcript : List Char) (durationMs : Int) :
    alignFromDuration transcript durationMs =
      specHeuristicTimings transcript durationMs := by
  dsimp only [alignFromDuration, specHeuristicTimings]
  split
  · rfl
  · simp only [List.map_map]
    rfl

theorem alignFromDuration_length (transcript : List Char) (durationMs : Int)
    (hD : 0 < durationMs) :
    (alignFromDuration transcript durationMs).length =
      (tokenizeWithSpans transcript).length := by
  dsimp only [alignFromDuration]
  split
  · rename_i h
    rcases h with h | h
    · simpa using h.symm
    · omega
  · simp

theorem alignFromDuration_getElem? (transcript : List Char) (durationMs : Int)
    (hD : 0 < durationMs) (i : Nat)
    (hi : i < (tokenizeWithSpans transcript).length) :
    (alignFromDuration transcript durationMs)[i]? =
      some
      (let tokens := tokenizeWithSpans transcript
       let n := tokens.length
       let tok := tokens.get (Fin.mk i hi)
       let s := (i : Int) * durationMs / (n : Int)
       let e0 := ((i : Int) + 1) * durationMs / (n : Int)
       let e1 := if e0 < s then s else e0
       ({ word := tok.1
          start_ms := s
          end_ms := if durationMs < e1 then durationMs else e1
          char_start := tok.2.1
          char_end := tok.2.2 } : Timing)) := by
  have hcond : ¬((tokenizeWithSpans transcript).length = 0 ∨ durationMs ≤ 0) := by
    push_neg
    exact ⟨by omega, by omega⟩
  have he : alignFromDuration transcript durationMs =
      ((tokenizeWithSpans transcript).enum.map (fun it =>
        ({ word := it.2.1
           start_ms := (it.1 : Int) * durationMs / ((tokenizeWithSpans transcript).length : Int)
           end_ms := ((it.1 : Int) + 1) * durationMs / ((tokenizeWithSpans transcript).length : Int)
           char_start := it.2.2.1
           char_end := it.2.2.2 } : Timing))).map (fun (t : Timing) =>
        let e1 := if t.end_ms < t.start_ms then t.start_ms else t.end_ms
        let e2 := if durationMs < e1 then durationMs else e1
        { t with end_ms := e2 }) := by
    dsimp only [alignFromDuration]
    rw [if_neg hcond]
  rw [he]
  simp [List.getElem?_eq_getElem, hi, List.getElem_enum]

theorem alignFromDuration_entry (transcript : List Char) (durationMs : Int)
    (hD : 0 < durationMs) (i : Nat)
    (hi : i < (tokenizeWithSpans transcript).length)
    (h2 : i < (alignFromDuration transcript durationMs).length) :
    (alignFromDuration transcript durationMs)[i] =
      (let tokens := tokenizeWithSpans transcript
       let n := tokens.length
       let tok := tokens.get (Fin.mk i hi)
       let s := (i : Int) * durationMs / (n : Int)
       let e0 := ((i : Int) + 1) * durationMs / (n : Int)
       let e1 := if e0 < s then s else e0
       ({ word := tok.1
          start_ms := s
          end_ms := if durationMs < e1 then durationMs else e1
          char_start := tok.2.1
          char_end := tok.2.2 } : Timing)) := by
  have h := alignFromDuration_getElem? transcript durationMs hD i hi
  rw [List.getElem?_eq_getElem h2] at h
  exact Option.some.inj h

theorem alignFromDuration_empty (transcript : List Char) (durationMs : Int)
    (h : (tokenizeWithSpans transcript).length = 0 ∨ durationMs ≤ 0) :
    alignFromDuration transcript durationMs = [] := by
  dsimp only [alignFromDuration]
  rw [if_pos h]

/-- **C2.** For every transcript and duration `D` (milliseconds): with zero
word tokens or `D ≤ 0` the heuristic estimator returns `[]` (it is a total
function, so it never signals an error); otherwise token `i` of `n` receives
`start_ms = ⌊i·D/n⌋` and `end_ms = ⌊(i+1)·D/n⌋`, each endpoint computed
independently, and each `end_ms` is afterwards clamped to be `≥ start_ms` and
`≤ D` (the statement `alignFromDuration = specHeuristicTimings`, where the
latter is written from the specification text). In particular a 2-word
transcript with `D = 200` yields exactly `[(0,100), (100,200)]`. -/
theorem C2_heuristic_estimator (transcript : List Char) (durationMs : Int) :
    alignFromDuration transcript durationMs =
      specHeuristicTimings transcript durationMs ∧
    ((tokenizeWithSpans transcript).length = 0 ∨ durationMs ≤ 0 →
      alignFromDuration transcript durationMs = []) ∧
    alignFromDuration ['h', 'i', ' ', 'y', 'o'] 200 =
      [{ word := ['h', 'i'], start_ms := 0, end_ms := 100,
         char_start := 0, char_end := 2 },
       { word := ['y', 'o'], start_ms := 100, end_ms := 200,
         char_start := 3, char_end := 5 }] :=
  ⟨alignFromDuration_eq_spec transcript durationMs,
   alignFromDuration_empty transcript durationMs,
   by decide⟩

/-- Witness for `C2_heuristic_estimator`: the degenerate-case implication
discharged at a concrete input (empty transcript, positive duration). -/
theorem C2_heuristic_estimator_witness :
    alignFromDuration [] 5 = [] :=
  (C2_heuristic_estimator [] 5).2.1 (by decide)

/-- **C3.** Every entry of every heuristic estimator output satisfies
`0 ≤ start_ms ≤ end_ms ≤ duration_ms`, and `start_ms` is non-decreasing
across the sequence. -/
theorem C3_timing_invariants (transcript : List Char) (durationMs : Int) :
    (∀ t ∈ alignFromDuration transcript durationMs,
        0 ≤ t.start_ms ∧ t.start_ms ≤ t.end_ms ∧ t.end_ms ≤ durationMs) ∧
    List.Pairwise (fun a b : Timing => a.start_ms ≤ b.start_ms)
      (alignFromDuration transcript durationMs) := by
  by_cases hD : 0 < durationMs
  case neg =>
    rw [alignFromDuration_empty transcript durationMs (Or.inr (by omega))]
    simp
  case pos =>
    by_cases hn : (tokenizeWithSpans transcript).length = 0
    case pos =>
      rw [alignFromDuration_empty transcript durationMs (Or.inl hn)]
      simp
    case neg =>
      have hlen := alignFromDuration_length transcript durationMs hD
      have hnpos : (0 : Int) < ((tokenizeWithSpans transcript).length : Int) := by
        exact_mod_cast Nat.pos_of_ne_zero hn
      have hstart_le : ∀ i j : Nat, i ≤ j →
          (i : Int) * durationMs / ((tokenizeWithSpans transcript).length : Int) ≤
          (j : Int) * durationMs / ((tokenizeWithSpans transcript).length : Int) := by
        intro i j hij
        exact Int.ediv_le_ediv hnpos
          (mul_le_mul_of_nonneg_right (by exact_mod_cast hij) (le_of_lt hD))
      constructor
      · intro t ht
        obtain ⟨i, hi, hti⟩ := List.mem_iff_getElem.mp ht
        have hi' : i < (tokenizeWithSpans transcript).length := by omega
        rw [alignFromDuration_entry transcript durationMs hD i hi' hi] at hti
        subst hti
        dsimp only
        have hs0 : 0 ≤ (i : Int) * durationMs /
            ((tokenizeWithSpans transcript).length : Int) :=
          Int.ediv_nonneg (mul_nonneg (Int.ofNat_nonneg i) (le_of_lt hD))
            (le_of_lt hnpos)
        have hsD : (i : Int) * durationMs /
            ((tokenizeWithSpans transcript).length : Int) ≤ durationMs := by
          have h1 : (i : Int) * durationMs ≤
              ((tokenizeWithSpans transcript).length : Int) * durationMs :=
            mul_le_mul_of_nonneg_right (by exact_mod_cast Nat.le_of_lt hi')
              (le_of_lt hD)
          have h2 := Int.ediv_le_ediv hnpos h1
          rwa [Int.mul_ediv_cancel_left _ (by omega)] at h2
        refine ⟨hs0, ?_, ?_⟩ <;> split_ifs <;> omega
      · rw [List.pairwise_iff_getElem]
        intro i j hi hj hij
        have hi' : i < (tokenizeWithSpans transcript).length := by omega
        have hj' : j < (tokenizeWithSpans transcript).length := by omega
        rw [alignFromDuration_entry transcript durationMs hD i hi' hi,
          alignFromDuration_entry transcript durationMs hD j hj' hj]
        exact hstart_le i j (Nat.le_of_lt hij)

/-- Witness for `C3_timing_invariants`: the invariant evaluated on the
concrete two-word scenario. -/
theorem C3_timing_invariants_witness :
    (∀ t ∈ alignFromDuration ['h', 'i', ' ', 'y', 'o'] 200,
        0 ≤ t.start_ms ∧ t.start_ms ≤ t.end_ms ∧ t.end_ms ≤ 200) ∧
    List.Pairwise (fun a b : Timing => a.start_ms ≤ b.start_ms)
      (alignFromDuration ['h', 'i', ' ', 'y', 'o'] 200) :=
  C3_timing_invariants ['h', 'i', ' ', 'y', 'o'] 200

end Alignment

section Segmentation

/-!
## `utils/cleaning.py`, segmentation half (lines 203-314)
-/

/-- `text.replace("\r\n", "\n").replace("\r", "\n")`: the two sequential
left-to-right replaces collapse each `"\r\n"` pair to `"\n"` and turn every
remaining `'\r'` into `'\n'`, which is exactly this one-pass scan. -/
def normalizeNewlines : List Char → List Char
  | [] => []
  | [c] => if c = '\r' then ['\n'] else [c]
  | c :: d :: rest =>
    if c = '\r' then
      if d = '\n' then '\n' :: normalizeNewlines rest
      else '\n' :: normalizeNewlines (d :: rest)
    else c :: normalizeNewlines (d :: rest)

/-- Index of the last `'\n'` inside `run` (meaningful when `run` contains
one). -/
def lastNlIdx (run : List Char) : Nat :=
  run.length - 1 - (run.reverse.takeWhile (fun c => c ≠ '\n')).length

/-- Python `re.split(r"\n\s*\n", text)`: a match starts at a `'\n'` and, by
greedy `\s*` with backtracking, ends just after the last `'\n'` of the
whitespace run that follows it; parts between matches are returned, empties
included. `skip` counts characters of the current match still to be consumed;
`cur` is the (reversed) current part. -/
def splitOnBlankLines (s : List Char) : List (List Char) :=
  go 0 [] s
where
  go : Nat → List Char → List Char → List (List Char)
    | skip + 1, cur, _ :: rest => go skip cur rest
    | _, cur, [] => [cur.reverse]
    | 0, cur, c :: rest =>
      if c = '\n' && (rest.takeWhile pyIsSpace).contains '\n' then
        cur.reverse :: go (lastNlIdx (rest.takeWhile pyIsSpace) + 1) [] rest
      else go 0 (c :: cur) rest

/-- Python `text.split(sep)` for a one-character separator: split at every
occurrence, keeping empty parts. -/
def splitOnChar (sep : Char) : List Char → List (List Char) :=
  go []
where
  go : List Char → List Char → List (List Char)
    | cur, [] => [cur.reverse]
    | cur, c :: rest =>
      if c = sep then cur.reverse :: go [] rest else go (c :: cur) rest

/-- `_split_into_paragraphs` (`cleaning.py` lines 203-215): strip and keep the
non-empty blank-line-split parts; if none survive, try single newlines; else
the stripped text as one paragraph (or nothing when blank). -/
def splitIntoParagraphs (text : List Char) : List (List Char) :=
  let parts := ((splitOnBlankLines text).map pyStrip).filter (fun p => p ≠ [])
  if parts ≠ [] then parts
  else
    let singleLineParts :=
      ((splitOnChar '\n' text).map pyStrip).filter (fun p => p ≠ [])
    if singleLineParts.length > 1 then singleLineParts
    else if pyStrip text ≠ [] then [pyStrip text] else []

/-- The word-boundary wrap of an over-long paragraph inside `_greedy_chunk`
(`cleaning.py` lines 238-260): accumulate words while the running length
(words plus one space per join) fits, flush sub-chunks, and force-split a
single over-long word at the character budget — the remainder of a forced
split is kept as the current chunk without being re-split. `cur` is the
current word buffer, `clen` its joined length. -/
def wrapWords (maxChars : Nat) : List (List Char) → Nat → List (List Char) →
    List (List Char)
  | cur, _, [] => if cur = [] then [] else [joinSp cur]
  | cur, clen, w :: ws =>
    let wl := w.length + (if cur = [] then 0 else 1)
    if clen + wl ≤ maxChars then wrapWords maxChars (cur ++ [w]) (clen + wl) ws
    else if cur ≠ [] then joinSp cur :: wrapWords maxChars [w] w.length ws
    else
      w.take maxChars ::
        wrapWords maxChars [w.drop maxChars] (w.drop maxChars).length ws

/-- The paragraph-bucketing loop of `_greedy_chunk` (`cleaning.py` lines
221-263): accumulate paragraphs into `buf` while
`buf_len + len(p) + (1 if buf else 0) ≤ max_paragraph_chars` (note: the
check counts the two-character `"\n\n"` joiner as a single character);
on overflow flush the buffer, then either emit the paragraph or word-wrap
it. -/
def greedyGo (maxChars : Nat) : List (List Char) → Nat → List (List Char) →
    List (List Char)
  | buf, _, [] => if buf = [] then [] else [joinNl buf]
  | buf, bl, p :: ps =>
    if p = [] then greedyGo maxChars buf bl ps
    else if bl + p.length + (if buf = [] then 0 else 1) ≤ maxChars then
      greedyGo maxChars (buf ++ [p]) (bl + p.length + (if bl = 0 then 0 else 1)) ps
    else
      (if buf = [] then [] else [joinNl buf]) ++
      (if p.length ≤ maxChars then [p]
       else wrapWords maxChars [] 0 (pySplitWs p)) ++
      greedyGo maxChars [] 0 ps

/-- `_greedy_chunk` (`cleaning.py` lines 218-263); `max_paragraph_chars ≤ 0`
disables chunking. -/
def greedyChunk (paragraphs : List (List Char)) (maxChars : Int) :
    List (List Char) :=
  if maxChars ≤ 0 then paragraphs
  else greedyGo maxChars.toNat [] 0 paragraphs

/-- `_enforce_min_chunk_length` (`cleaning.py` lines 266-285), written with an
explicit merge accumulator: `acc = some m` means `m` is the chunk currently
being merged forward (`merged` in the source, with `i` already advanced past
the pieces absorbed into it). -/
def enforceGo (minChars : Nat) : Option (List Char) → List (List Char) →
    List (List Char)
  | none, [] => []
  | some m, [] => [m]
  | none, [c] => [c]
  | none, c :: rest =>
    if minChars ≤ (pyStrip c).length then c :: enforceGo minChars none rest
    else enforceGo minChars (some c) rest
  | some m, c :: rest =>
    if (pyStrip m).length < minChars then
      enforceGo minChars (some (m ++ nlnl ++ c)) rest
    else
      m ::
        (if minChars ≤ (pyStrip c).length ∨ rest = [] then
          c :: enforceGo minChars none rest
        else enforceGo minChars (some c) rest)

/-- `_enforce_min_chunk_length` (`cleaning.py` lines 266-285): merge every
chunk with fewer than `min_chars` stripped characters forward into subsequent
chunks (joined by `"\n\n"`) until the threshold is reached or input runs out;
the final chunk is always kept. `min_chars ≤ 0` (here: `= 0`) or an empty
input is a no-op. -/
def enforceMinChunkLength (chunks : List (List Char)) (minChars : Nat) :
    List (List Char) :=
  if minChars = 0 ∨ chunks = [] then chunks
  else enforceGo minChars none chunks

/-- `segment_text_only` (`cleaning.py` lines 288-299): minimal newline
normalization, paragraph split, greedy chunking, then minimum-length
enforcement with `min_chars = 20`. -/
def segmentTextOnly (rawText : List Char) (maxChars : Int) : List (List Char) :=
  let text := normalizeNewlines rawText
  let paragraphs := splitIntoParagraphs text
  let chunks := greedyChunk paragraphs maxChars
  enforceMinChunkLength chunks 20

end Segmentation

section SegmentationLemmas

theorem joinNl_nil : joinNl [] = [] := by
  simp [joinNl, List.intercalate]

theorem joinNl_singleton (x : List Char) : joinNl [x] = x := by
  simp [joinNl, List.intercalate]

theorem joinNl_cons₂ (x y : List Char) (t : List (List Char)) :
    joinNl (x :: y :: t) = x ++ nlnl ++ joinNl (y :: t) := by
  simp [joinNl, List.intercalate, List.intersperse]

theorem joinNl_cons (x : List Char) (t : List (List Char)) :
    joinNl (x :: t) = if t = [] then x else x ++ nlnl ++ joinNl t := by
  cases t with
  | nil => simp [joinNl_singleton]
  | cons y t => simp [joinNl_cons₂]

theorem joinSp_nil : joinSp [] = [] := by
  simp [joinSp, List.intercalate]

theorem joinSp_singleton (x : List Char) : joinSp [x] = x := by
  simp [joinSp, List.intercalate]

theorem joinSp_cons₂ (x y : List Char) (t : List (List Char)) :
    joinSp (x :: y :: t) = x ++ [' '] ++ joinSp (y :: t) := by
  simp [joinSp, List.intercalate, List.intersperse]

theorem joinSp_append_singleton (xs : List (List Char)) (y : List Char) :
    joinSp (xs ++ [y]) =
      if xs = [] then y else joinSp xs ++ [' '] ++ y := by
  induction xs with
  | nil => simp [joinSp_singleton]
  | cons x xs ih =>
    cases xs with
    | nil => simp [joinSp_cons₂, joinSp_singleton]
    | cons z zs =>
      have h2 : ((z :: zs) ++ [y]) = z :: (zs ++ [y]) := by simp
      show joinSp (x :: ((z :: zs) ++ [y])) = _
      rw [h2, joinSp_cons₂, ← h2, ih]
      simp [joinSp_cons₂]

theorem startsWithSeq_self_append (pat rest : List Char) :
    startsWithSeq pat (pat ++ rest) = true := by
  induction pat with
  | nil => rfl
  | cons p ps ih => simp [startsWithSeq, ih]

theorem containsSeq_cons (pat : List Char) (c : Char) (cs : List Char) :
    containsSeq pat (c :: cs) =
      (startsWithSeq pat (c :: cs) || containsSeq pat cs) := rfl

theorem containsSeq_of_startsWithSeq (pat s : List Char)
    (h : startsWithSeq pat s = true) : containsSeq pat s = true := by
  cases s with
  | nil => exact h
  | cons c cs => simp [containsSeq, h]

theorem containsSeq_append_mid (pat pre suf : List Char) :
    containsSeq pat (pre ++ pat ++ suf) = true := by
  induction pre with
  | nil =>
    apply containsSeq_of_startsWithSeq
    simpa using startsWithSeq_self_append pat suf
  | cons c cs ih =>
    have h : (c :: cs) ++ pat ++ suf = c :: (cs ++ pat ++ suf) := by simp
    rw [h, containsSeq_cons, ih]
    simp

theorem pySplitWs_go_no_space (s : List Char) :
    ∀ cur, (∀ ch ∈ cur, pyIsSpace ch = false) →
      ∀ w ∈ pySplitWs.go cur s, ∀ ch ∈ w, pyIsSpace ch = false := by
  induction s with
  | nil =>
    intro cur hcur w hw
    dsimp [pySplitWs.go] at hw
    split at hw
    · simp at hw
    · simp at hw
      subst hw
      intro ch hch
      exact hcur ch (List.mem_reverse.mp hch)
  | cons c rest ih =>
    intro cur hcur w hw
    dsimp [pySplitWs.go] at hw
    split at hw
    · split at hw
      · exact ih [] (by simp) w hw
      · rcases List.mem_cons.mp hw with h | h
        · subst h
          intro ch hch
          exact hcur ch (List.mem_reverse.mp hch)
        · exact ih [] (by simp) w h
    · rename_i hc
      refine ih (c :: cur) ?_ w hw
      intro ch hch
      rcases List.mem_cons.mp hch with h | h
      · subst h
        simpa using hc
      · exact hcur ch h

theorem pySplitWs_no_space (s : List Char) :
    ∀ w ∈ pySplitWs s, ∀ ch ∈ w, pyIsSpace ch = false :=
  pySplitWs_go_no_space s [] (by simp)

/-- The property every chunk of `segment_text_only` actually satisfies when
`maxChars > 0`: it fits the budget, or it is a blank-line join of several
pieces (greedy buffering counts the two-character `"\n\n"` joiner as one
character, and minimum-length merging concatenates freely), or it is a
whitespace-free fragment of a single over-long word (the forced split keeps
its remainder unsplit). -/
def ChunkOk (maxChars : Nat) (c : List Char) : Prop :=
  c.length ≤ maxChars ∨ containsSeq nlnl c = true ∨ ∀ ch ∈ c, pyIsSpace ch = false

theorem wrapWords_ok (maxChars : Nat) (ws : List (List Char)) :
    ∀ cur clen, (∀ w ∈ ws, ∀ ch ∈ w, pyIsSpace ch = false) →
      (∀ w ∈ cur, ∀ ch ∈ w, pyIsSpace ch = false) →
      clen = (joinSp cur).length →
      (clen ≤ maxChars ∨ ∃ u, cur = [u]) →
      ∀ c ∈ wrapWords maxChars cur clen ws, ChunkOk maxChars c := by
  induction ws with
  | nil =>
    intro cur clen hws hcur hlen hinv c hc
    dsimp [wrapWords] at hc
    split at hc
    · simp at hc
    · simp at hc
      subst hc
      rcases hinv with h | ⟨u, hu⟩
      · exact Or.inl (by omega)
      · subst hu
        rw [joinSp_singleton]
        exact Or.inr (Or.inr (hcur u (by simp)))
  | cons w ws ih =>
    intro cur clen hws hcur hlen hinv c hc
    have hw : ∀ ch ∈ w, pyIsSpace ch = false := hws w (by simp)
    have hws' : ∀ v ∈ ws, ∀ ch ∈ v, pyIsSpace ch = false :=
      fun v hv => hws v (by simp [hv])
    have hdropok : ∀ v ∈ [List.drop maxChars w], ∀ ch ∈ v, pyIsSpace ch = false := by
      intro v hv
      simp at hv
      subst hv
      intro ch hch
      exact hw ch (List.drop_subset _ _ hch)
    cases cur with
    | nil =>
      rw [joinSp_nil] at hlen
      simp only [List.length_nil] at hlen
      subst hlen
      simp only [wrapWords] at hc
      simp at hc
      split at hc
      · rename_i hfits
        refine ih [w] _ hws' (by simpa using hw) ?_ (Or.inr ⟨w, rfl⟩) c hc
        rw [joinSp_singleton]
      · rcases List.mem_cons.mp hc with h | h
        · subst h
          refine Or.inl ?_
          rw [List.length_take]
          omega
        · refine ih [List.drop maxChars w] _ hws' hdropok ?_
            (Or.inr ⟨_, rfl⟩) c h
          rw [joinSp_singleton, List.length_drop]
    | cons q t =>
      simp only [wrapWords] at hc
      simp at hc
      split at hc
      · rename_i hfits
        refine ih ((q :: t) ++ [w]) _ hws' ?_ ?_ ?_ c hc
        · intro v hv
          rcases List.mem_append.mp hv with h | h
          · exact hcur v h
          · simp at h
            subst h
            exact hw
        · rw [joinSp_append_singleton, if_neg (List.cons_ne_nil q t)]
          simp only [List.length_append, List.length_singleton]
          omega
        · refine Or.inl ?_
          omega
      · rcases List.mem_cons.mp hc with h | h
        · subst h
          rcases hinv with hle | ⟨u, hu⟩
          · exact Or.inl (by omega)
          · rw [hu, joinSp_singleton]
            exact Or.inr (Or.inr (hcur u (by simp [hu])))
        · refine ih [w] _ hws' (by simpa using hw) ?_
            (Or.inr ⟨w, rfl⟩) c h
          rw [joinSp_singleton]

theorem joinNl_flush_ok (maxChars : Nat) (buf : List (List Char)) (bl : Nat)
    (hlen : bl = (buf.map List.length).sum + (buf.length - 1))
    (hle : bl ≤ maxChars) :
    ChunkOk maxChars (joinNl buf) := by
  cases buf with
  | nil =>
    rw [joinNl_nil]
    exact Or.inl (by simp)
  | cons u t =>
    cases t with
    | nil =>
      rw [joinNl_singleton]
      refine Or.inl ?_
      simp at hlen
      omega
    | cons v t' =>
      rw [joinNl_cons₂]
      exact Or.inr (Or.inl (containsSeq_append_mid nlnl u (joinNl (v :: t'))))

theorem greedyGo_ok (maxChars : Nat) (ps : List (List Char)) :
    ∀ buf bl, (∀ p ∈ buf, p ≠ []) →
      bl = (buf.map List.length).sum + (buf.length - 1) →
      (buf ≠ [] → bl ≤ maxChars) →
      ∀ c ∈ greedyGo maxChars buf bl ps, ChunkOk maxChars c := by
  induction ps with
  | nil =>
    intro buf bl hne hlen hle c hc
    dsimp [greedyGo] at hc
    split at hc
    · simp at hc
    · rename_i hbuf
      simp at hc
      subst hc
      exact joinNl_flush_ok maxChars buf bl hlen (hle hbuf)
  | cons p ps ih =>
    intro buf bl hne hlen hle c hc
    simp only [greedyGo] at hc
    by_cases hp : p = []
    · rw [if_pos hp] at hc
      exact ih buf bl hne hlen hle c hc
    · rw [if_neg hp] at hc
      cases buf with
      | nil =>
        have hbl : bl = 0 := by simpa using hlen
        subst hbl
        simp at hc
        split at hc
        · rename_i hfits
          refine ih [p] _ (by simpa using hp) (by simp) ?_ c hc
          intro _
          omega
        · rename_i hnfits
          rcases List.mem_append.mp hc with hcl | hcr
          · exact wrapWords_ok maxChars (pySplitWs p) [] 0
              (pySplitWs_no_space p) (by simp) (by simp [joinSp_nil])
              (Or.inl (by omega)) c hcl
          · exact ih [] 0 (by simp) (by simp) (by simp) c hcr
      | cons q t =>
        have hbne : bl ≠ 0 := by
          have hq : q ≠ [] := hne q (by simp)
          have h1 : 1 ≤ q.length := by
            cases q with
            | nil => exact absurd rfl hq
            | cons a b => simp
          simp at hlen
          omega
        simp only [if_neg (List.cons_ne_nil q t), if_neg hbne] at hc
        split at hc
        · rename_i hfits
          refine ih ((q :: t) ++ [p]) _ ?_ ?_ ?_ c hc
          · intro r hr
            rcases List.mem_append.mp hr with h | h
            · exact hne r h
            · simp at h
              subst h
              exact hp
          · simp only [List.map_append, List.sum_append, List.map_cons,
              List.map_nil, List.sum_cons, List.sum_nil, List.length_append,
              List.length_cons, List.length_nil] at hlen ⊢
            omega
          · intro _
            omega
        · rcases List.mem_append.mp hc with hcl | hcr
          · rcases List.mem_append.mp hcl with hf | hmid
            · simp at hf
              subst hf
              exact joinNl_flush_ok maxChars (q :: t) bl hlen
                (hle (List.cons_ne_nil q t))
            · split at hmid
              · rename_i hple
                simp at hmid
                subst hmid
                exact Or.inl hple
              · exact wrapWords_ok maxChars (pySplitWs p) [] 0
                  (pySplitWs_no_space p) (by simp) (by simp [joinSp_nil])
                  (Or.inl (by omega)) c hmid
          · exact ih [] 0 (by simp) (by simp) (by simp) c hcr

theorem enforceGo_some_ne_nil (minChars : Nat) (chunks : List (List Char)) :
    ∀ m, enforceGo minChars (some m) chunks ≠ [] := by
  induction chunks with
  | nil =>
    intro m
    simp [enforceGo]
  | cons c rest ih =>
    intro m
    dsimp [enforceGo]
    split
    · exact ih _
    · simp

theorem enforceGo_none_ne_nil (minChars : Nat) (chunks : List (List Char))
    (h : chunks ≠ []) : enforceGo minChars none chunks ≠ [] := by
  cases chunks with
  | nil => exact absurd rfl h
  | cons c rest =>
    cases rest with
    | nil => simp [enforceGo]
    | cons d rest' =>
      dsimp [enforceGo]
      split
      · simp
      · exact enforceGo_some_ne_nil minChars (d :: rest') c

theorem enforceGo_joinNl (minChars : Nat) (chunks : List (List Char)) :
    (∀ m, joinNl (enforceGo minChars (some m) chunks) = joinNl (m :: chunks)) ∧
    joinNl (enforceGo minChars none chunks) = joinNl chunks := by
  induction chunks with
  | nil =>
    exact ⟨fun m => rfl, rfl⟩
  | cons c rest ih =>
    constructor
    · intro m
      dsimp [enforceGo]
      split
      · rw [ih.1 (m ++ nlnl ++ c)]
        rw [joinNl_cons (m ++ nlnl ++ c) rest, joinNl_cons m (c :: rest),
          joinNl_cons c rest]
        split
        · simp [List.append_assoc]
        · simp [List.append_assoc]
      · split
        · rename_i hcond
          cases hrest : rest with
          | nil =>
            subst hrest
            show joinNl [m, c] = joinNl [m, c]
            rfl
          | cons d rest' =>
            subst hrest
            have hne : enforceGo minChars none (d :: rest') ≠ [] :=
              enforceGo_none_ne_nil minChars (d :: rest') (by simp)
            rw [joinNl_cons m (c :: enforceGo minChars none (d :: rest')),
              joinNl_cons c (enforceGo minChars none (d :: rest')),
              if_neg hne, ih.2, joinNl_cons m (c :: d :: rest'),
              joinNl_cons c (d :: rest')]
            simp
        · rw [joinNl_cons m (enforceGo minChars (some c) rest),
            if_neg (enforceGo_some_ne_nil minChars rest c), ih.1 c,
            joinNl_cons m (c :: rest)]
          simp
    · cases rest with
      | nil =>
        show joinNl [c] = joinNl [c]
        rfl
      | cons d rest' =>
        dsimp [enforceGo]
        split
        · have hne : enforceGo minChars none (d :: rest') ≠ [] :=
            enforceGo_none_ne_nil minChars (d :: rest') (by simp)
          rw [joinNl_cons c (enforceGo minChars none (d :: rest')), if_neg hne,
            ih.2, joinNl_cons c (d :: rest')]
          simp
        · exact ih.1 c

theorem enforceGo_dropLast (minChars : Nat) (chunks : List (List Char)) :
    (∀ m, ∀ c ∈ (enforceGo minChars (some m) chunks).dropLast,
        minChars ≤ (pyStrip c).length) ∧
    (∀ c ∈ (enforceGo minChars none chunks).dropLast,
        minChars ≤ (pyStrip c).length) := by
  induction chunks with
  | nil =>
    constructor
    · intro m c hc
      simp [enforceGo] at hc
    · intro c hc
      simp [enforceGo] at hc
  | cons c rest ih =>
    have hinner : ∀ x,
        (minChars ≤ (pyStrip x).length ∨ rest = []) →
        ∀ e ∈ (if minChars ≤ (pyStrip x).length ∨ rest = [] then
            x :: enforceGo minChars none rest
          else enforceGo minChars (some x) rest).dropLast,
          minChars ≤ (pyStrip e).length := by
      intro x hx e he
      rw [if_pos hx] at he
      cases hrest : rest with
      | nil =>
        subst hrest
        simp [enforceGo] at he
      | cons d rest' =>
        subst hrest
        rw [List.dropLast_cons_of_ne_nil
          (enforceGo_none_ne_nil minChars (d :: rest') (by simp))] at he
        rcases List.mem_cons.mp he with h | h
        · subst h
          rcases hx with hx | hx
          · exact hx
          · simp at hx
        · exact ih.2 e h
    constructor
    · intro m e he
      dsimp [enforceGo] at he
      split at he
      · exact ih.1 _ e he
      · rename_i hm
        rw [List.dropLast_cons_of_ne_nil ?hne] at he
        case hne =>
          split
          · simp
          · exact enforceGo_some_ne_nil minChars rest c
        rcases List.mem_cons.mp he with h | h
        · subst h
          omega
        · split at h
          · rename_i hcond
            exact hinner c hcond e (by rwa [if_pos hcond])
          · exact ih.1 c e h
    · intro e he
      cases hrest : rest with
      | nil =>
        subst hrest
        simp [enforceGo] at he
      | cons d rest' =>
        subst hrest
        dsimp [enforceGo] at he
        split at he
        · rename_i hcond
          rw [List.dropLast_cons_of_ne_nil
            (enforceGo_none_ne_nil minChars (d :: rest') (by simp))] at he
          rcases List.mem_cons.mp he with h | h
          · subst h
            exact hcond
          · exact ih.2 e h
        · exact ih.1 c e he

theorem enforceGo_chunkOk (minChars maxChars : Nat) (chunks : List (List Char)) :
    ∀ acc : Option (List Char), (∀ m, acc = some m → ChunkOk maxChars m) →
      (∀ d ∈ chunks, ChunkOk maxChars d) →
      ∀ c ∈ enforceGo minChars acc chunks, ChunkOk maxChars c := by
  induction chunks with
  | nil =>
    intro acc hacc hch c hc
    cases acc with
    | none => simp [enforceGo] at hc
    | some m =>
      simp [enforceGo] at hc
      subst hc
      exact hacc c rfl
  | cons c rest ih =>
    intro acc hacc hch e he
    have hc : ChunkOk maxChars c := hch c (by simp)
    have hch' : ∀ d ∈ rest, ChunkOk maxChars d := fun d hd => hch d (by simp [hd])
    have hinner : e ∈ (if minChars ≤ (pyStrip c).length ∨ rest = [] then
          c :: enforceGo minChars none rest
        else enforceGo minChars (some c) rest) → ChunkOk maxChars e := by
      intro he'
      split at he'
      · rcases List.mem_cons.mp he' with h | h
        · subst h
          exact hc
        · exact ih none (by simp) hch' e h
      · exact ih (some c) (by intro m hm; cases hm; exact hc) hch' e he'
    cases acc with
    | none =>
      cases hrest : rest with
      | nil =>
        subst hrest
        simp [enforceGo] at he
        subst he
        exact hc
      | cons d rest' =>
        subst hrest
        dsimp [enforceGo] at he
        split at he
        · rcases List.mem_cons.mp he with h | h
          · subst h
            exact hc
          · exact ih none (by simp) hch' e h
        · exact ih (some c) (by intro m hm; cases hm; exact hc) hch' e he
    | some m =>
      dsimp [enforceGo] at he
      split at he
      · refine ih (some (m ++ nlnl ++ c)) ?_ hch' e he
        intro m' hm'
        cases hm'
        exact Or.inr (Or.inl (containsSeq_append_mid nlnl m c))
      · rcases List.mem_cons.mp he with h | h
        · subst h
          exact hacc e rfl
        · exact hinner h

end SegmentationLemmas

section SegmentationClaims

/-- **C1, counterexample.** The claim "every chunk returned by the
segmentation pipeline except possibly the last has character length at most
`maxChars`" fails: for the input `"aaaa\n\nbbbb\n\n" ++ "c"*30` with
`maxChars = 9`, `segment_text_only` returns
`["aaaa\n\nbbbb\n\nccccccccc", "c"*21]`, whose first (non-last) chunk has
length 21 > 9 — the greedy buffer check counts the two-character `"\n\n"`
joiner as one character, and minimum-length merging lengthens chunks
further. -/
theorem C1_counterexample :
    ¬ (∀ c ∈ (segmentTextOnly
          ("aaaa\n\nbbbb\n\n".toList ++ List.replicate 30 'c') 9).dropLast,
        c.length ≤ 9) := by
  decide

/-- **C1, amended.** For every input text and every `maxChars > 0`, every
chunk returned by `segment_text_only` either has length at most `maxChars`,
or contains the blank-line separator `"\n\n"` (it is a greedy join of several
paragraphs — whose length check counts the two-character joiner as one
character — or a minimum-length merge), or is a whitespace-free fragment of a
single over-long word (the forced split keeps its remainder unsplit). -/
theorem C1_amended (rawText : List Char) (maxChars : Int) (h : 0 < maxChars) :
    ∀ c ∈ segmentTextOnly rawText maxChars,
      c.length ≤ maxChars.toNat ∨ containsSeq nlnl c = true ∨
        ∀ ch ∈ c, pyIsSpace ch = false := by
  intro c hc
  simp only [segmentTextOnly] at hc
  have hgreedy : ∀ d ∈ greedyChunk
      (splitIntoParagraphs (normalizeNewlines rawText)) maxChars,
      ChunkOk maxChars.toNat d := by
    intro d hd
    unfold greedyChunk at hd
    rw [if_neg (by omega)] at hd
    exact greedyGo_ok maxChars.toNat
      (splitIntoParagraphs (normalizeNewlines rawText)) [] 0 (by simp)
      (by simp) (by simp) d hd
  simp only [enforceMinChunkLength] at hc
  split at hc
  · rename_i hcond
    rcases hcond with hcond | hcond
    · omega
    · rw [hcond] at hc
      simp at hc
  · exact enforceGo_chunkOk 20 maxChars.toNat _ none (by simp) hgreedy c hc

/-- Witness for `C1_amended`: evaluated on a small concrete input. -/
theorem C1_amended_witness :
    "hello world".toList.length ≤ (50 : Int).toNat ∨
      containsSeq nlnl "hello world".toList = true ∨
        ∀ ch ∈ "hello world".toList, pyIsSpace ch = false :=
  C1_amended "hello world".toList 50 (by decide) "hello world".toList (by decide)

/-- **C7 (code-bug evaluation).** The spec says that for non-blank text
without blank-line boundaries paragraph splitting falls back to single line
breaks, so that `"a\nb"` becomes `["a", "b"]`; in the code the blank-line
split of a non-blank text always produces a non-empty parts list, so the
fallback (`cleaning.py` lines 209-212, under the comment "If no double
newlines, try splitting on single newlines") is unreachable and the whole
text is returned as one paragraph. -/
theorem C7_split_eval :
    splitIntoParagraphs ['a', '\n', 'b'] = [['a', '\n', 'b']] := by
  decide

/-- **C8.** Minimum-length enforcement at threshold 20: the blank-line join
of the result equals the blank-line join of the input (undersized chunks are
merged forward with a `"\n\n"` separator, preserving order and content);
every returned chunk except the last has at least 20 stripped characters; and
the result is empty exactly when the input is (the final chunk is always
kept). -/
theorem C8_min_length_enforce (chunks : List (List Char)) :
    joinNl (enforceMinChunkLength chunks 20) = joinNl chunks ∧
    (∀ c ∈ (enforceMinChunkLength chunks 20).dropLast,
        20 ≤ (pyStrip c).length) ∧
    (enforceMinChunkLength chunks 20 = [] ↔ chunks = []) := by
  unfold enforceMinChunkLength
  cases chunks with
  | nil => simp
  | cons c rest =>
    rw [if_neg (by simp)]
    refine ⟨(enforceGo_joinNl 20 (c :: rest)).2,
      (enforceGo_dropLast 20 (c :: rest)).2, ?_⟩
    constructor
    · intro h
      exact absurd h (enforceGo_none_ne_nil 20 (c :: rest) (by simp))
    · intro h
      simp at h

set_option maxRecDepth 4000 in
/-- Witness for `C8_min_length_enforce`: the first (merged, non-last) chunk
of a concrete run indeed has at least 20 stripped characters. -/
theorem C8_min_length_enforce_witness :
    20 ≤ (pyStrip (['a'] ++ nlnl ++ List.replicate 25 'b')).length :=
  (C8_min_length_enforce [['a'], List.replicate 25 'b', List.replicate 30 'd']).2.1
    (['a'] ++ nlnl ++ List.replicate 25 'b') (by decide)

end SegmentationClaims

section Cleaning

/-!
## `utils/cleaning.py`, normalization half (lines 18-200)

Each Python `re.sub` call is hand-compiled to a deterministic scanner:
`pySubGo try_ skip prev s` walks the string left to right exactly as
`re.sub` does — at every position it attempts a match (`try_`), emits the
replacement and jumps past the consumed characters on success, and copies one
character on failure. `prev` is the character preceding the current position
in the *original* string (`none` at the start), which is what the `^` anchor
(MULTILINE) and the look-behind of the italic-underscore pattern inspect.
`try_ prev (c :: rest) = some (repl, k)` means the pattern matches the
`k + 1`-character prefix of `c :: rest` and is replaced by `repl` (every
pattern in this file consumes at least one character, as in the source).
-/

def pySubGo (try_ : Option Char → List Char → Option (List Char × Nat)) :
    Nat → Option Char → List Char → List Char
  | _, _, [] => []
  | skip + 1, _, c :: rest => pySubGo try_ skip (some c) rest
  | 0, prev, c :: rest =>
    match try_ prev (c :: rest) with
    | some (repl, k) => repl ++ pySubGo try_ k (some c) rest
    | none => c :: pySubGo try_ 0 (some c) rest

/-- One full `re.sub` pass over the string. -/
def applySub (try_ : Option Char → List Char → Option (List Char × Nat))
    (s : List Char) : List Char :=
  pySubGo try_ 0 none s

/-- `^` in MULTILINE mode: start of string or right after a `'\n'`. -/
def atLineStart : Option Char → Bool
  | none => true
  | some c => c = '\n'

/-- ``re.sub(r"```[^`]*```", "", text, flags=re.DOTALL)``
(`cleaning.py` line 109). -/
def tryCodeFence : Option Char → List Char → Option (List Char × Nat)
  | _, '`' :: '`' :: '`' :: rest =>
    let body := rest.takeWhile (fun c => c ≠ '`')
    match rest.drop body.length with
    | '`' :: '`' :: '`' :: _ => some ([], body.length + 5)
    | _ => none
  | _, _ => none

/-- `re.sub(r"~~~[^~]*~~~", "", text, flags=re.DOTALL)` (line 110). -/
def tryTildeFence : Option Char → List Char → Option (List Char × Nat)
  | _, '~' :: '~' :: '~' :: rest =>
    let body := rest.takeWhile (fun c => c ≠ '~')
    match rest.drop body.length with
    | '~' :: '~' :: '~' :: _ => some ([], body.length + 5)
    | _ => none
  | _, _ => none

/-- ``re.sub(r"`([^`]+)`", r"\1", text)`` (line 113). -/
def tryInlineCode : Option Char → List Char → Option (List Char × Nat)
  | _, '`' :: rest =>
    let body := rest.takeWhile (fun c => c ≠ '`')
    if body.length = 0 then none
    else
      match rest.drop body.length with
      | '`' :: _ => some (body, body.length + 1)
      | _ => none
  | _, _ => none

/-- `re.sub(r"\[([^\]]+)\]\([^)]+\)", r"\1", text)` (line 116). -/
def tryLink : Option Char → List Char → Option (List Char × Nat)
  | _, '[' :: rest =>
    let b1 := rest.takeWhile (fun c => c ≠ ']')
    if b1.length = 0 then none
    else
      match rest.drop b1.length with
      | ']' :: '(' :: rest2 =>
        let b2 := rest2.takeWhile (fun c => c ≠ ')')
        if b2.length = 0 then none
        else
          match rest2.drop b2.length with
          | ')' :: _ => some (b1, b1.length + b2.length + 3)
          | _ => none
      | _ => none
  | _, _ => none

/-- `re.sub(r"\[([^\]]+)\]\[[^\]]+\]", r"\1", text)` (line 119). -/
def tryRefLink : Option Char → List Char → Option (List Char × Nat)
  | _, '[' :: rest =>
    let b1 := rest.takeWhile (fun c => c ≠ ']')
    if b1.length = 0 then none
    else
      match rest.drop b1.length with
      | ']' :: '[' :: rest2 =>
        let b2 := rest2.takeWhile (fun c => c ≠ ']')
        if b2.length = 0 then none
        else
          match rest2.drop b2.length with
          | ']' :: _ => some (b1, b1.length + b2.length + 3)
          | _ => none
      | _ => none
  | _, _ => none

/-- `re.sub(r"!\[[^\]]*\]\([^)]+\)", "", text)` (line 122). -/
def tryImage : Option Char → List Char → Option (List Char × Nat)
  | _, '!' :: '[' :: rest =>
    let b1 := rest.takeWhile (fun c => c ≠ ']')
    match rest.drop b1.length with
    | ']' :: '(' :: rest2 =>
      let b2 := rest2.takeWhile (fun c => c ≠ ')')
      if b2.length = 0 then none
      else
        match rest2.drop b2.length with
        | ')' :: _ => some ([], b1.length + b2.length + 4)
        | _ => none
    | _ => none
  | _, _ => none

/-- Backtracking search for the `\s+` of the header pattern: the largest
`k ∈ [1, w]` such that the character at index `k` of `after` exists and is
not `'\n'` (there `(.+)$` starts). -/
def hdrFindW (after : List Char) : Nat → Option Nat
  | 0 => none
  | k + 1 =>
    match after[k + 1]? with
    | some ch => if ch = '\n' then hdrFindW after k else some (k + 1)
    | none => hdrFindW after k

/-- `re.sub(r"^#{1,6}\s+(.+)$", r"\1", text, flags=re.MULTILINE)` (line 125):
at a line start, 1-6 hashes (7 or more never match), at least one whitespace
character (greedy `\s+` may cross line breaks and backtracks until `(.+)`
can start at a non-newline character), then the content up to the end of the
line. -/
def tryHeader : Option Char → List Char → Option (List Char × Nat)
  | prev, '#' :: rest =>
    if atLineStart prev then
      let hashes := ('#' :: rest).takeWhile (fun c => c = '#')
      if hashes.length ≤ 6 then
        let after := ('#' :: rest).drop hashes.length
        let w := (after.takeWhile pyIsSpace).length
        if w = 0 then none
        else
          match hdrFindW after w with
          | some k =>
            let content := (after.drop k).takeWhile (fun c => c ≠ '\n')
            some (content, hashes.length + k + content.length - 1)
          | none => none
      else none
    else none
  | _, _ => none

/-- `re.sub(r"\*\*([^*]+)\*\*", r"\1", text)` (line 128). -/
def tryBoldStar : Option Char → List Char → Option (List Char × Nat)
  | _, '*' :: '*' :: rest =>
    let body := rest.takeWhile (fun c => c ≠ '*')
    if body.length = 0 then none
    else
      match rest.drop body.length with
      | '*' :: '*' :: _ => some (body, body.length + 3)
      | _ => none
  | _, _ => none

/-- `re.sub(r"__([^_]+)__", r"\1", text)` (line 129). -/
def tryBoldUnderscore : Option Char → List Char → Option (List Char × Nat)
  | _, '_' :: '_' :: rest =>
    let body := rest.takeWhile (fun c => c ≠ '_')
    if body.length = 0 then none
    else
      match rest.drop body.length with
      | '_' :: '_' :: _ => some (body, body.length + 3)
      | _ => none
  | _, _ => none

/-- `re.sub(r"\*([^*]+)\*", r"\1", text)` (line 132). -/
def tryItalicStar : Option Char → List Char → Option (List Char × Nat)
  | _, '*' :: rest =>
    let body := rest.takeWhile (fun c => c ≠ '*')
    if body.length = 0 then none
    else
      match rest.drop body.length with
      | '*' :: _ => some (body, body.length + 1)
      | _ => none
  | _, _ => none

/-- `re.sub(r"(?<!\w)_([^_]+)_(?!\w)", r"\1", text)` (line 133): the
look-behind inspects `prev`, the look-around after the closing underscore
consumes nothing. -/
def tryItalicUnderscore : Option Char → List Char → Option (List Char × Nat)
  | prev, '_' :: rest =>
    if (match prev with | some p => !pyIsWord p | none => true) then
      let body := rest.takeWhile (fun c => c ≠ '_')
      if body.length = 0 then none
      else
        match rest.drop body.length with
        | '_' :: rest2 =>
          match rest2 with
          | c2 :: _ => if pyIsWord c2 then none else some (body, body.length + 1)
          | [] => some (body, body.length + 1)
        | _ => none
    else none
  | _, _ => none

/-- `re.sub(r"~~([^~]+)~~", r"\1", text)` (line 136). -/
def tryStrike : Option Char → List Char → Option (List Char × Nat)
  | _, '~' :: '~' :: rest =>
    let body := rest.takeWhile (fun c => c ≠ '~')
    if body.length = 0 then none
    else
      match rest.drop body.length with
      | '~' :: '~' :: _ => some (body, body.length + 3)
      | _ => none
  | _, _ => none

/-- `re.sub(r"^>\s+", "", text, flags=re.MULTILINE)` (line 139): the greedy
`\s+` may cross line breaks. -/
def tryBlockquote : Option Char → List Char → Option (List Char × Nat)
  | prev, '>' :: rest =>
    if atLineStart prev then
      let w := (rest.takeWhile pyIsSpace).length
      if w = 0 then none else some ([], w)
    else none
  | _, _ => none

def isHrChar (c : Char) : Bool := c = '-' || c = '*' || c = '_'

/-- Can the `$` of the horizontal-rule pattern hold after consuming `k`
whitespace characters at `after`? (`$` matches at the end of the string or
before a `'\n'`.) -/
def hrEndOk (after : List Char) (k : Nat) : Bool :=
  match after[k]? with
  | none => true
  | some ch => ch = '\n'

/-- Backtracking search for the `\s*$` of the horizontal-rule pattern: the
largest `k ∈ [0, w]` at which `$` holds. -/
def hrFindW (after : List Char) : Nat → Option Nat
  | 0 => if hrEndOk after 0 then some 0 else none
  | k + 1 => if hrEndOk after (k + 1) then some (k + 1) else hrFindW after k

/-- `re.sub(r"^[-*_]{3,}\s*$", "", text, flags=re.MULTILINE)` (line 142). -/
def tryHRule : Option Char → List Char → Option (List Char × Nat)
  | prev, c :: rest =>
    if atLineStart prev && isHrChar c then
      let run := (c :: rest).takeWhile isHrChar
      if 3 ≤ run.length then
        let after := (c :: rest).drop run.length
        let w := (after.takeWhile pyIsSpace).length
        match hrFindW after w with
        | some k => some ([], run.length + k - 1)
        | none => none
      else none
    else none
  | _, [] => none

def isBullet (c : Char) : Bool := c = '-' || c = '*' || c = '+'

/-- `re.sub(r"^[\s]*[-*+]\s+", "", text, flags=re.MULTILINE)` (line 145):
the leading `[\s]*` is greedy but must end exactly where the bullet sits. -/
def tryUList : Option Char → List Char → Option (List Char × Nat)
  | prev, c :: rest =>
    if atLineStart prev then
      let w1 := ((c :: rest).takeWhile pyIsSpace).length
      match (c :: rest).drop w1 with
      | b :: rest2 =>
        if isBullet b then
          let w2 := (rest2.takeWhile pyIsSpace).length
          if w2 = 0 then none else some ([], w1 + w2)
        else none
      | [] => none
    else none
  | _, [] => none

/-- `re.sub(r"^[\s]*\d+\.\s+", "", text, flags=re.MULTILINE)` (line 148). -/
def tryOList : Option Char → List Char → Option (List Char × Nat)
  | prev, c :: rest =>
    if atLineStart prev then
      let w1 := ((c :: rest).takeWhile pyIsSpace).length
      let digits := ((c :: rest).drop w1).takeWhile pyIsDigit
      if digits.length = 0 then none
      else
        match ((c :: rest).drop w1).drop digits.length with
        | '.' :: rest2 =>
          let w2 := (rest2.takeWhile pyIsSpace).length
          if w2 = 0 then none
          else some ([], w1 + digits.length + w2)
        | _ => none
    else none
  | _, [] => none

/-- `re.sub(r"^[\s]*-\s*\[[x ]\]\s+", "", text, flags=re.MULTILINE)`
(line 151). -/
def tryTaskList : Option Char → List Char → Option (List Char × Nat)
  | prev, c :: rest =>
    if atLineStart prev then
      let w1 := ((c :: rest).takeWhile pyIsSpace).length
      match (c :: rest).drop w1 with
      | '-' :: rest2 =>
        let w2 := (rest2.takeWhile pyIsSpace).length
        match rest2.drop w2 with
        | '[' :: x :: ']' :: rest3 =>
          if x = 'x' || x = ' ' then
            let w3 := (rest3.takeWhile pyIsSpace).length
            if w3 = 0 then none
            else some ([], w1 + w2 + w3 + 3)
          else none
        | _ => none
      | _ => none
    else none
  | _, [] => none

/-- `re.sub(r"<[^>]+>", "", text)` (line 154). -/
def tryHtml : Option Char → List Char → Option (List Char × Nat)
  | _, '<' :: rest =>
    let body := rest.takeWhile (fun c => c ≠ '>')
    if body.length = 0 then none
    else
      match rest.drop body.length with
      | '>' :: _ => some ([], body.length + 1)
      | _ => none
  | _, _ => none

/-- `_strip_markdown_formatting` (`cleaning.py` lines 103-156): the eighteen
`re.sub` passes in source order. -/
def stripMarkdownFormatting (text : List Char) : List Char :=
  applySub tryHtml
    (applySub tryTaskList
      (applySub tryOList
        (applySub tryUList
          (applySub tryHRule
            (applySub tryBlockquote
              (applySub tryStrike
                (applySub tryItalicUnderscore
                  (applySub tryItalicStar
                    (applySub tryBoldUnderscore
                      (applySub tryBoldStar
                        (applySub tryHeader
                          (applySub tryImage
                            (applySub tryRefLink
                              (applySub tryLink
                                (applySub tryInlineCode
                                  (applySub tryTildeFence
                                    (applySub tryCodeFence text)))))))))))))))))

/-- The character class of `_strip_emojis` (`cleaning.py` lines 165-183):
the union of the listed ranges and singletons. -/
def isEmojiChar (c : Char) : Bool :=
  (0x1f600 ≤ c.val && c.val ≤ 0x1f64f) ||
  (0x1f300 ≤ c.val && c.val ≤ 0x1f5ff) ||
  (0x1f680 ≤ c.val && c.val ≤ 0x1f6ff) ||
  (0x1f700 ≤ c.val && c.val ≤ 0x1f77f) ||
  (0x1f780 ≤ c.val && c.val ≤ 0x1f7ff) ||
  (0x1f800 ≤ c.val && c.val ≤ 0x1f8ff) ||
  (0x1f900 ≤ c.val && c.val ≤ 0x1f9ff) ||
  (0x1fa00 ≤ c.val && c.val ≤ 0x1fa6f) ||
  (0x1fa70 ≤ c.val && c.val ≤ 0x1faff) ||
  (0x2702 ≤ c.val && c.val ≤ 0x27b0) ||
  (0x24c2 ≤ c.val && c.val ≤ 0x1f251) ||
  c.val = 0x1f004 || c.val = 0x1f0cf ||
  (0x1f170 ≤ c.val && c.val ≤ 0x1f251)

/-- `_strip_emojis` (`cleaning.py` lines 159-184): `emoji_pattern.sub("", …)`
with a `[class]+` pattern and empty replacement removes exactly the
characters of the class. -/
def stripEmojis (text : List Char) : List Char :=
  text.filter (fun c => !isEmojiChar c)

/-- Python `text.replace(k, v)` for a single-character needle. -/
def replaceChar (k : Char) (v : List Char) (text : List Char) : List Char :=
  (text.map (fun c => if c = k then v else [c])).flatten

/-- `_LIGATURES_MAP` then `_SYMBOLS_MAP` in source (dict) order
(`cleaning.py` lines 18-33). -/
def ligatureSymbolPairs : List (Char × List Char) :=
  [('ﬁ', ['f', 'i']), ('ﬂ', ['f', 'l']), ('ﬀ', ['f', 'f']),
   ('ﬃ', ['f', 'f', 'i']), ('ﬄ', ['f', 'f', 'l']),
   ('±', ['+', '/', '-']), ('µ', ['m', 'i', 'c', 'r', 'o']),
   ('α', ['a', 'l', 'p', 'h', 'a']), ('β', ['b', 'e', 't', 'a']),
   ('γ', ['g', 'a', 'm', 'm', 'a']), ('×', ['x'])]

/-- `_normalize_ligatures_and_symbols` (`cleaning.py` lines 36-43): the
sequential `str.replace` calls (the `if k in text` guard does not change the
result). -/
def normalizeLigaturesAndSymbols (text : List Char) : List Char :=
  ligatureSymbolPairs.foldl (fun t p => replaceChar p.1 p.2 t) text

/-- `re.sub(r"(\w+)-\n(\w+)", r"\1\2", text)` (`_fix_hyphenation`,
`cleaning.py` lines 46-48): a maximal `\w` run followed by `"-\n"` and at
least one more `\w` character; the hyphen and line break are dropped. -/
def tryHyphen : Option Char → List Char → Option (List Char × Nat)
  | _, c :: rest =>
    if pyIsWord c then
      let run1 := rest.takeWhile pyIsWord
      match rest.drop run1.length with
      | '-' :: '\n' :: rest2 =>
        let run2 := rest2.takeWhile pyIsWord
        if run2.length = 0 then none
        else some ((c :: run1) ++ run2, run1.length + run2.length + 2)
      | _ => none
    else none
  | _, [] => none

/-- `_fix_hyphenation` (`cleaning.py` lines 46-48). -/
def fixHyphenation (text : List Char) : List Char :=
  applySub tryHyphen text

/-- The line terminators of Python `str.splitlines()`. -/
def pyIsLineBreak (c : Char) : Bool :=
  c = '\n' || c = '\r' || c.val = 0x0b || c.val = 0x0c || c.val = 0x1c ||
  c.val = 0x1d || c.val = 0x1e || c.val = 0x85 || c.val = 0x2028 ||
  c.val = 0x2029

/-- Python `str.splitlines()`: split at every terminator (a `"\r\n"` pair
counts once); a trailing fragment without terminator forms the last line; the
empty string has no lines. -/
def pySplitlines (s : List Char) : List (List Char) :=
  go [] s
where
  go : List Char → List Char → List (List Char)
    | cur, [] => if cur = [] then [] else [cur.reverse]
    | cur, '\r' :: '\n' :: rest => cur.reverse :: go [] rest
    | cur, c :: rest =>
      if pyIsLineBreak c then cur.reverse :: go [] rest
      else go (c :: cur) rest

/-- `re.fullmatch(r"page\s+\d+", ln_stripped, flags=re.IGNORECASE)`
(`cleaning.py` line 57): `"page"` case-insensitively, at least one whitespace
character, then only digits. -/
def isPageMarker (s : List Char) : Bool :=
  match s.map Char.toLower with
  | 'p' :: 'a' :: 'g' :: 'e' :: rest =>
    let w := (rest.takeWhile pyIsSpace).length
    let d := rest.drop w
    decide (1 ≤ w) && decide (1 ≤ d.length) && d.all pyIsDigit
  | _ => false

/-- `re.fullmatch(r"\d+", ln_stripped)` (`cleaning.py` line 59). -/
def isAllDigits (s : List Char) : Bool :=
  decide (1 ≤ s.length) && s.all pyIsDigit

/-- `_strip_headers_footers` (`cleaning.py` lines 51-72): drop page-marker
and bare-number lines; then drop every line whose stripped content is
non-empty, at most 80 characters long, and occurs at least 3 times among the
remaining lines (the `if repeated:` guard is a no-op when the set is
empty). -/
def stripHeadersFooters (text : List Char) : List Char :=
  let lines := pySplitlines text
  let cleaned := lines.filter (fun ln =>
    !isPageMarker (pyStrip ln) && !isAllDigits (pyStrip ln))
  let isRepeated : List Char → Bool := fun key =>
    decide (key ≠ []) && decide (key.length ≤ 80) &&
      decide (3 ≤ cleaned.countP (fun l2 => pyStrip l2 = key))
  joinLines (cleaned.filter (fun ln => !isRepeated (pyStrip ln)))

/-- Case-insensitive prefix test (pattern given in lowercase). -/
def startsWithCI : List Char → List Char → Bool
  | [], _ => true
  | _ :: _, [] => false
  | p :: ps, c :: cs => p = Char.toLower c && startsWithCI ps cs

/-- `\b` when the preceding pattern character is a word character: the next
input character must not be one (or the input ends). -/
def boundaryAfterWord : List Char → Bool
  | [] => true
  | c :: _ => !pyIsWord c

/-- `\b` when the preceding pattern character is `'.'` (non-word): the next
input character must be a word character. -/
def boundaryAfterNonWord : List Char → Bool
  | [] => false
  | c :: _ => pyIsWord c

/-- `re.compile(r"^(figure|table|fig\.)\b.*", re.IGNORECASE).match(stripped)`
(`cleaning.py` lines 77-78). After `"fig."` the `\b` only holds when a word
character follows the dot. -/
def isFigureLine (s : List Char) : Bool :=
  (startsWithCI ['f', 'i', 'g', 'u', 'r', 'e'] s && boundaryAfterWord (s.drop 6)) ||
  (startsWithCI ['t', 'a', 'b', 'l', 'e'] s && boundaryAfterWord (s.drop 5)) ||
  (startsWithCI ['f', 'i', 'g', '.'] s && boundaryAfterNonWord (s.drop 4))

/-- `_strip_figure_table_noise` (`cleaning.py` lines 75-79). -/
def stripFigureTableNoise (text : List Char) : List Char :=
  joinLines ((pySplitlines text).filter (fun ln => !isFigureLine (pyStrip ln)))

/-- `re.sub(r"\[(\d{1,3})\]", r"reference \1", text)`
(`_map_simple_inline_citations`, `cleaning.py` line 100): brackets holding
exactly 1-3 digits. -/
def tryCitation : Option Char → List Char → Option (List Char × Nat)
  | _, '[' :: rest =>
    let digits := rest.takeWhile pyIsDigit
    if 1 ≤ digits.length && digits.length ≤ 3 then
      match rest.drop digits.length with
      | ']' :: _ =>
        some (['r', 'e', 'f', 'e', 'r', 'e', 'n', 'c', 'e', ' '] ++ digits,
          digits.length + 1)
      | _ => none
    else none
  | _, _ => none

/-- `_map_simple_inline_citations` (`cleaning.py` lines 93-100). -/
def mapSimpleInlineCitations (text : List Char) : List Char :=
  applySub tryCitation text

def isTFV (c : Char) : Bool := c = '\t' || c.val = 0x0c || c.val = 0x0b

/-- `re.sub(r"[\t\f\v]+", " ", text)` (`cleaning.py` line 86): each maximal
run of tab/form-feed/vertical-tab becomes one space. -/
def collapseTFV (text : List Char) : List Char :=
  go false text
where
  go : Bool → List Char → List Char
    | _, [] => []
    | inRun, c :: rest =>
      if isTFV c then
        if inRun then go true rest else ' ' :: go true rest
      else c :: go false rest

def isSpNb (c : Char) : Bool := c = ' ' || c.val = 0xa0

/-- `re.sub(r"[  ]{2,}", " ", text)` (`cleaning.py` line 87): each
maximal run of two or more space/no-break-space characters becomes one
space; isolated ones are kept as they are. -/
def collapseSpaceRuns (text : List Char) : List Char :=
  go false text
where
  go : Bool → List Char → List Char
    | _, [] => []
    | true, c :: rest =>
      if isSpNb c then go true rest else c :: go false rest
    | false, c :: rest =>
      if isSpNb c then
        match rest with
        | d :: _ =>
          if isSpNb d then ' ' :: go true rest else c :: go false rest
        | [] => c :: go false rest
      else c :: go false rest

/-- `re.sub(r"\n{3,}", "\n\n", text)` (`cleaning.py` line 89): each maximal
run of three or more newlines becomes exactly two. -/
def collapseNlRuns (text : List Char) : List Char :=
  go 0 text
where
  go : Nat → List Char → List Char
    | run, [] => List.replicate (min run 2) '\n'
    | run, c :: rest =>
      if c = '\n' then go (run + 1) rest
      else List.replicate (min run 2) '\n' ++ (c :: go 0 rest)

/-- `_normalize_whitespace` (`cleaning.py` lines 82-90): unify line endings,
collapse tab/form-feed/vertical-tab runs to a space, collapse runs of two or
more spaces/no-break spaces to a space, collapse three or more newlines to
two, strip. -/
def normalizeWhitespace (text : List Char) : List Char :=
  pyStrip (collapseNlRuns (collapseSpaceRuns (collapseTFV
    (normalizeNewlines text))))

/-- `clean_text_for_tts` (`cleaning.py` lines 187-200); the `language`
argument is unused in the source. -/
def cleanTextForTts (rawText : List Char) : List Char :=
  normalizeWhitespace
    (mapSimpleInlineCitations
      (stripFigureTableNoise
        (stripHeadersFooters
          (fixHyphenation
            (normalizeLigaturesAndSymbols
              (stripEmojis
                (stripMarkdownFormatting rawText)))))))

/-- `clean_and_segment_text` (`cleaning.py` lines 302-314). -/
def cleanAndSegmentText (rawText : List Char) (maxChars : Int) :
    List (List Char) :=
  let cleaned := cleanTextForTts rawText
  let paragraphs := splitIntoParagraphs cleaned
  let chunks := greedyChunk paragraphs maxChars
  enforceMinChunkLength chunks 20

end Cleaning

section WhitespaceIdempotence

/-!
Support for the amended C6: `_normalize_whitespace` is idempotent. The plan:
its output contains no carriage return, no tab/form-feed/vertical-tab, no two
adjacent space/no-break-space characters, no three consecutive newlines, and
no leading or trailing whitespace — and each stage is the identity on strings
with the corresponding property.
-/

theorem normalizeNewlines_no_cr (s : List Char) :
    ∀ c ∈ normalizeNewlines s, c ≠ '\r' := by
  induction s using normalizeNewlines.induct with
  | case1 => simp [normalizeNewlines]
  | case2 => simp [normalizeNewlines]
  | case3 c hc => simp [normalizeNewlines, hc]
  | case4 rest ih =>
    simp only [normalizeNewlines]
    intro c hc
    rcases List.mem_cons.mp hc with h | h
    · subst h; decide
    · exact ih c h
  | case5 d rest hd ih =>
    simp only [normalizeNewlines, if_pos rfl, if_neg hd]
    intro c hc
    rcases List.mem_cons.mp hc with h | h
    · subst h; decide
    · exact ih c h
  | case6 c d rest hc ih =>
    simp only [normalizeNewlines, if_neg hc]
    intro e he
    rcases List.mem_cons.mp he with h | h
    · subst h; exact hc
    · exact ih e h

theorem normalizeNewlines_id (s : List Char) (h : ∀ c ∈ s, c ≠ '\r') :
    normalizeNewlines s = s := by
  induction s using normalizeNewlines.induct with
  | case1 => rfl
  | case2 => exact absurd rfl (h '\r' (by simp))
  | case3 c hc => simp [normalizeNewlines, hc]
  | case4 rest ih => exact absurd rfl (h '\r' (by simp))
  | case5 d rest hd ih => exact absurd rfl (h '\r' (by simp))
  | case6 c d rest hc ih =>
    simp only [normalizeNewlines, if_neg hc]
    rw [ih (fun e he => h e (by simp [he]))]

theorem collapseTFV_go_mem (b : Bool) (s : List Char) :
    ∀ c ∈ collapseTFV.go b s, c = ' ' ∨ c ∈ s := by
  induction s generalizing b with
  | nil => simp [collapseTFV.go]
  | cons c rest ih =>
    intro e he
    dsimp [collapseTFV.go] at he
    split at he
    · split at he
      · rcases ih true e he with h | h
        · exact Or.inl h
        · exact Or.inr (by simp [h])
      · rcases List.mem_cons.mp he with h | h
        · exact Or.inl h
        · rcases ih true e h with h2 | h2
          · exact Or.inl h2
          · exact Or.inr (by simp [h2])
    · rcases List.mem_cons.mp he with h | h
      · exact Or.inr (by simp [h])
      · rcases ih false e h with h2 | h2
        · exact Or.inl h2
        · exact Or.inr (by simp [h2])

theorem collapseTFV_go_no_tfv (b : Bool) (s : List Char) :
    ∀ c ∈ collapseTFV.go b s, isTFV c = false := by
  induction s generalizing b with
  | nil => simp [collapseTFV.go]
  | cons c rest ih =>
    intro e he
    dsimp [collapseTFV.go] at he
    split at he
    · split at he
      · exact ih true e he
      · rcases List.mem_cons.mp he with h | h
        · subst h; decide
        · exact ih true e h
    · rename_i hc
      rcases List.mem_cons.mp he with h | h
      · subst h; simpa using hc
      · exact ih false e h

theorem collapseSpaceRuns_go_mem (b : Bool) (s : List Char) :
    ∀ c ∈ collapseSpaceRuns.go b s, c = ' ' ∨ c ∈ s := by
  induction s generalizing b with
  | nil => cases b <;> simp [collapseSpaceRuns.go]
  | cons c rest ih =>
    intro e he
    cases b with
    | true =>
      dsimp [collapseSpaceRuns.go] at he
      split at he
      · rcases ih true e he with h | h
        · exact Or.inl h
        · exact Or.inr (by simp [h])
      · rcases List.mem_cons.mp he with h | h
        · exact Or.inr (by simp [h])
        · rcases ih false e h with h2 | h2
          · exact Or.inl h2
          · exact Or.inr (by simp [h2])
    | false =>
      dsimp [collapseSpaceRuns.go] at he
      split at he
      · rename_i hc
        cases rest with
        | nil =>
          simp [collapseSpaceRuns.go] at he
          exact Or.inr (by simp [he])
        | cons d tail =>
          dsimp at he
          split at he
          · rcases List.mem_cons.mp he with h | h
            · exact Or.inl h
            · rcases ih true e h with h2 | h2
              · exact Or.inl h2
              · exact Or.inr (by simp [h2])
          · rcases List.mem_cons.mp he with h | h
            · exact Or.inr (by simp [h])
            · rcases ih false e h with h2 | h2
              · exact Or.inl h2
              · exact Or.inr (by simp [h2])
      · rcases List.mem_cons.mp he with h | h
        · exact Or.inr (by simp [h])
        · rcases ih false e h with h2 | h2
          · exact Or.inl h2
          · exact Or.inr (by simp [h2])

theorem collapseNlRuns_go_mem (r : Nat) (s : List Char) :
    ∀ c ∈ collapseNlRuns.go r s, c = '\n' ∨ c ∈ s := by
  induction s generalizing r with
  | nil =>
    intro e he
    dsimp [collapseNlRuns.go] at he
    exact Or.inl (List.eq_of_mem_replicate he)
  | cons c rest ih =>
    intro e he
    dsimp [collapseNlRuns.go] at he
    split at he
    · rcases ih (r + 1) e he with h | h
      · exact Or.inl h
      · exact Or.inr (by simp [h])
    · rcases List.mem_append.mp he with h | h
      · exact Or.inl (List.eq_of_mem_replicate h)
      · rcases List.mem_cons.mp h with h2 | h2
        · exact Or.inr (by simp [h2])
        · rcases ih 0 e h2 with h3 | h3
          · exact Or.inl h3
          · exact Or.inr (by simp [h3])

theorem dropTrailingSpace_mem (s : List Char) :
    ∀ c ∈ dropTrailingSpace s, c ∈ s := by
  induction s with
  | nil => simp [dropTrailingSpace]
  | cons c rest ih =>
    intro e he
    dsimp [dropTrailingSpace] at he
    split at he
    · simp at he
    · rcases List.mem_cons.mp he with h | h
      · simp [h]
      · exact List.mem_cons_of_mem c (ih e h)

theorem pyStrip_mem (s : List Char) : ∀ c ∈ pyStrip s, c ∈ s := by
  intro c hc
  exact (List.dropWhile_sublist pyIsSpace).mem
    (dropTrailingSpace_mem (s.dropWhile pyIsSpace) c hc)

theorem mem_of_mem_getLast? {l : List Char} {x : Char} (h : x ∈ l.getLast?) :
    x ∈ l := by
  cases l with
  | nil => simp at h
  | cons c rest =>
    rw [List.getLast?_eq_getLast (c :: rest) (by simp)] at h
    simp at h
    subst h
    exact List.getLast_mem _

/-- Adjacent characters are never both space/no-break-space. -/
def SpacedOk (a b : Char) : Prop :=
  isSpNb a = false ∨ isSpNb b = false

theorem collapseSpaceRuns_go_true_head (s : List Char) :
    ∀ c ∈ (collapseSpaceRuns.go true s).head?, isSpNb c = false := by
  induction s with
  | nil => simp [collapseSpaceRuns.go]
  | cons c rest ih =>
    dsimp [collapseSpaceRuns.go]
    split
    · exact ih
    · rename_i hc
      intro e he
      simp at he
      subst he
      simpa using hc

theorem collapseSpaceRuns_go_false_cons (c : Char) (rest : List Char)
    (hc : isSpNb c = false) :
    collapseSpaceRuns.go false (c :: rest) = c :: collapseSpaceRuns.go false rest := by
  cases rest with
  | nil => simp [collapseSpaceRuns.go, hc]
  | cons d tail => simp [collapseSpaceRuns.go, hc]

theorem collapseSpaceRuns_go_chain (s : List Char) :
    ∀ b, List.Chain' SpacedOk (collapseSpaceRuns.go b s) := by
  induction s with
  | nil => intro b; cases b <;> simp [collapseSpaceRuns.go]
  | cons c rest ih =>
    intro b
    cases b with
    | true =>
      dsimp [collapseSpaceRuns.go]
      split
      · exact ih true
      · rename_i hc
        rw [List.chain'_cons']
        exact ⟨fun y _ => Or.inl (by simpa using hc), ih false⟩
    | false =>
      by_cases hc : isSpNb c
      case neg =>
        rw [collapseSpaceRuns_go_false_cons c rest (by simpa using hc)]
        rw [List.chain'_cons']
        exact ⟨fun y _ => Or.inl (by simpa using hc), ih false⟩
      case pos =>
        cases rest with
        | nil => simp [collapseSpaceRuns.go, hc]
        | cons d tail =>
          dsimp [collapseSpaceRuns.go]
          rw [if_pos hc]
          split
          · rename_i hd
            rw [List.chain'_cons']
            refine ⟨fun y hy =>
              Or.inr (collapseSpaceRuns_go_true_head _ y hy), ?_⟩
            have h2 : collapseSpaceRuns.go true (d :: tail) =
                collapseSpaceRuns.go true tail := by
              simp [collapseSpaceRuns.go, hd]
            rw [← h2]
            exact ih true
          · rename_i hd
            rw [List.chain'_cons']
            constructor
            · intro y hy
              simp at hy
              subst hy
              exact Or.inr (by simpa using hd)
            · rw [← collapseSpaceRuns_go_false_cons d tail (by simpa using hd)]
              exact ih false

theorem collapseNlRuns_go_ne_nil (s : List Char) :
    ∀ r, 1 ≤ r → collapseNlRuns.go r s ≠ [] := by
  induction s with
  | nil =>
    intro r hr
    dsimp [collapseNlRuns.go]
    have : min r 2 = 1 ∨ min r 2 = 2 := by omega
    rcases this with h | h <;> simp [h]
  | cons c rest ih =>
    intro r hr
    dsimp [collapseNlRuns.go]
    split
    · exact ih (r + 1) (by omega)
    · have : min r 2 = 1 ∨ min r 2 = 2 := by omega
      rcases this with h | h <;> simp [h]

theorem collapseNlRuns_go_head_pos (s : List Char) :
    ∀ r, 1 ≤ r → ∀ c ∈ (collapseNlRuns.go r s).head?, c = '\n' := by
  induction s with
  | nil =>
    intro r hr c hc
    dsimp [collapseNlRuns.go] at hc
    have : min r 2 = 1 ∨ min r 2 = 2 := by omega
    rcases this with h | h <;> rw [h] at hc <;> simp at hc <;> exact hc.symm
  | cons c rest ih =>
    intro r hr e he
    dsimp [collapseNlRuns.go] at he
    split at he
    · exact ih (r + 1) (by omega) e he
    · have : min r 2 = 1 ∨ min r 2 = 2 := by omega
      rcases this with h | h <;> rw [h] at he <;> simp at he <;> exact he.symm

theorem collapseNlRuns_go_head0 (s : List Char) :
    (collapseNlRuns.go 0 s).head? = none ∨
    (collapseNlRuns.go 0 s).head? = some '\n' ∨
    (collapseNlRuns.go 0 s).head? = s.head? := by
  cases s with
  | nil => exact Or.inl rfl
  | cons c rest =>
    by_cases hc : c = '\n'
    · subst hc
      refine Or.inr (Or.inl ?_)
      have h1 : collapseNlRuns.go 0 ('\n' :: rest) = collapseNlRuns.go 1 rest := by
        simp [collapseNlRuns.go]
      rw [h1]
      have hne := collapseNlRuns_go_ne_nil rest 1 (by omega)
      cases hgo : collapseNlRuns.go 1 rest with
      | nil => exact absurd hgo hne
      | cons x xs =>
        have := collapseNlRuns_go_head_pos rest 1 (by omega) x (by rw [hgo]; simp)
        simp [this]
    · refine Or.inr (Or.inr ?_)
      simp [collapseNlRuns.go, hc]

theorem collapseNlRuns_go_chain (s : List Char) :
    ∀ r, List.Chain' SpacedOk s → List.Chain' SpacedOk (collapseNlRuns.go r s) := by
  induction s with
  | nil =>
    intro r _
    dsimp [collapseNlRuns.go]
    exact List.chain'_replicate_of_rel _ (Or.inl (by decide))
  | cons c rest ih =>
    intro r h
    dsimp [collapseNlRuns.go]
    split
    · exact ih (r + 1) h.tail
    · rw [List.chain'_append]
      refine ⟨List.chain'_replicate_of_rel _ (Or.inl (by decide)), ?_, ?_⟩
      · rw [List.chain'_cons']
        constructor
        · intro y hy
          rcases collapseNlRuns_go_head0 rest with h0 | h0 | h0
          · rw [h0] at hy
            simp at hy
          · rw [h0] at hy
            simp at hy
            subst hy
            exact Or.inr (by decide)
          · rw [h0] at hy
            exact (List.chain'_cons'.mp h).1 y hy
        · exact ih 0 h.tail
      · intro x hx y _
        have hx2 : x = '\n' :=
          List.eq_of_mem_replicate (mem_of_mem_getLast? hx)
        subst hx2
        exact Or.inl (by decide)

theorem chain'_dropWhile {R : Char → Char → Prop} (p : Char → Bool) (l : List Char)
    (h : List.Chain' R l) : List.Chain' R (l.dropWhile p) := by
  induction l with
  | nil => simp
  | cons c rest ih =>
    by_cases hp : p c
    · rw [List.dropWhile_cons_of_pos hp]
      exact ih h.tail
    · rw [List.dropWhile_cons_of_neg hp]
      exact h

theorem dropTrailingSpace_eq_take (s : List Char) :
    ∃ n, dropTrailingSpace s = s.take n := by
  induction s with
  | nil => exact ⟨0, rfl⟩
  | cons c rest ih =>
    obtain ⟨n, hn⟩ := ih
    dsimp [dropTrailingSpace]
    split
    · exact ⟨0, rfl⟩
    · exact ⟨n + 1, by rw [hn]; rfl⟩

theorem chain'_pyStrip {R : Char → Char → Prop} (l : List Char)
    (h : List.Chain' R l) : List.Chain' R (pyStrip l) := by
  obtain ⟨n, hn⟩ := dropTrailingSpace_eq_take (l.dropWhile pyIsSpace)
  rw [pyStrip, hn]
  exact (chain'_dropWhile pyIsSpace l h).take n

/-- No three consecutive newline characters. -/
def noTripleNl : List Char → Bool
  | c :: d :: e :: rest =>
    !(c = '\n' && d = '\n' && e = '\n') && noTripleNl (d :: e :: rest)
  | _ => true

theorem noTripleNl_tail (c : Char) (t : List Char)
    (h : noTripleNl (c :: t) = true) : noTripleNl t = true := by
  cases t with
  | nil => rfl
  | cons d t2 =>
    cases t2 with
    | nil => rfl
    | cons e t3 =>
      simp only [noTripleNl, Bool.and_eq_true] at h
      exact h.2

theorem noTripleNl_cons_of_ne (c : Char) (t : List Char) (hc : c ≠ '\n') :
    noTripleNl (c :: t) = noTripleNl t := by
  cases t with
  | nil => rfl
  | cons d t2 =>
    cases t2 with
    | nil => rfl
    | cons e t3 =>
      simp only [noTripleNl, hc]
      simp

theorem noTripleNl_nl_cons (c : Char) (t : List Char) (hc : c ≠ '\n') :
    noTripleNl ('\n' :: c :: t) = noTripleNl (c :: t) := by
  cases t with
  | nil => rfl
  | cons d t2 =>
    simp only [noTripleNl, hc]
    simp

theorem noTripleNl_nl_nl_cons (c : Char) (t : List Char) (hc : c ≠ '\n') :
    noTripleNl ('\n' :: '\n' :: c :: t) = noTripleNl (c :: t) := by
  have h1 : noTripleNl ('\n' :: '\n' :: c :: t) = noTripleNl ('\n' :: c :: t) := by
    simp only [noTripleNl]
    simp [hc]
  rw [h1, noTripleNl_nl_cons c t hc]

theorem collapseNlRuns_go_noTriple (s : List Char) :
    ∀ r, noTripleNl (collapseNlRuns.go r s) = true := by
  induction s with
  | nil =>
    intro r
    dsimp [collapseNlRuns.go]
    have : min r 2 = 0 ∨ min r 2 = 1 ∨ min r 2 = 2 := by omega
    rcases this with h | h | h <;> rw [h] <;> rfl
  | cons c rest ih =>
    intro r
    dsimp [collapseNlRuns.go]
    split
    · exact ih (r + 1)
    · rename_i hc
      have h0 : noTripleNl (c :: collapseNlRuns.go 0 rest) = true := by
        rw [noTripleNl_cons_of_ne c _ hc]
        exact ih 0
      have : min r 2 = 0 ∨ min r 2 = 1 ∨ min r 2 = 2 := by omega
      rcases this with h | h | h <;> rw [h]
      · simpa using h0
      · show noTripleNl ('\n' :: c :: collapseNlRuns.go 0 rest) = true
        rw [noTripleNl_nl_cons c _ hc]
        exact h0
      · show noTripleNl ('\n' :: '\n' :: c :: collapseNlRuns.go 0 rest) = true
        rw [noTripleNl_nl_nl_cons c _ hc]
        exact h0

theorem noTripleNl_append_left (l₁ l₂ : List Char)
    (h : noTripleNl (l₁ ++ l₂) = true) : noTripleNl l₁ = true := by
  induction l₁ with
  | nil => rfl
  | cons c rest ih =>
    cases rest with
    | nil => rfl
    | cons d rest2 =>
      cases rest2 with
      | nil => rfl
      | cons e rest3 =>
        simp only [List.cons_append, noTripleNl, Bool.and_eq_true] at h ⊢
        refine ⟨h.1, ?_⟩
        have := ih (by simpa [noTripleNl, List.cons_append] using h.2)
        simpa [noTripleNl] using this

theorem noTripleNl_take (s : List Char) (n : Nat)
    (h : noTripleNl s = true) : noTripleNl (s.take n) = true :=
  noTripleNl_append_left (s.take n) (s.drop n)
    (by rwa [List.take_append_drop])

theorem noTripleNl_dropWhile (p : Char → Bool) (l : List Char)
    (h : noTripleNl l = true) : noTripleNl (l.dropWhile p) = true := by
  induction l with
  | nil => rfl
  | cons c rest ih =>
    by_cases hp : p c
    · rw [List.dropWhile_cons_of_pos hp]
      exact ih (noTripleNl_tail c rest h)
    · rw [List.dropWhile_cons_of_neg hp]
      exact h

theorem noTripleNl_pyStrip (l : List Char) (h : noTripleNl l = true) :
    noTripleNl (pyStrip l) = true := by
  obtain ⟨n, hn⟩ := dropTrailingSpace_eq_take (l.dropWhile pyIsSpace)
  rw [pyStrip, hn]
  exact noTripleNl_take _ n (noTripleNl_dropWhile pyIsSpace l h)

theorem dropWhile_head_not (p : Char → Bool) (l : List Char) :
    ∀ c ∈ (l.dropWhile p).head?, p c = false := by
  induction l with
  | nil => simp
  | cons c rest ih =>
    by_cases hp : p c
    · rw [List.dropWhile_cons_of_pos hp]
      exact ih
    · rw [List.dropWhile_cons_of_neg hp]
      intro e he
      simp at he
      subst he
      simpa using hp

theorem dropTrailingSpace_head (l : List Char) :
    dropTrailingSpace l = [] ∨ (dropTrailingSpace l).head? = l.head? := by
  cases l with
  | nil => exact Or.inl rfl
  | cons c rest =>
    dsimp [dropTrailingSpace]
    split
    · exact Or.inl rfl
    · exact Or.inr rfl

theorem dropTrailingSpace_last (l : List Char) :
    ∀ c ∈ (dropTrailingSpace l).getLast?, pyIsSpace c = false := by
  induction l with
  | nil => simp [dropTrailingSpace]
  | cons c rest ih =>
    dsimp [dropTrailingSpace]
    split
    · simp
    · rename_i hcond
      intro e he
      cases hr : dropTrailingSpace rest with
      | nil =>
        rw [hr] at he
        rw [List.getLast?_singleton] at he
        simp at he
        subst he
        rw [hr] at hcond
        simpa using hcond
      | cons x xs =>
        rw [hr] at he
        rw [List.getLast?_cons_cons] at he
        rw [← hr] at he
        exact ih e he

theorem normalizeNewlines_props (x : List Char) :
    (∀ c ∈ normalizeWhitespace x, c ≠ '\r') ∧
    (∀ c ∈ normalizeWhitespace x, isTFV c = false) ∧
    List.Chain' SpacedOk (normalizeWhitespace x) ∧
    noTripleNl (normalizeWhitespace x) = true ∧
    (∀ c ∈ (normalizeWhitespace x).head?, pyIsSpace c = false) ∧
    (∀ c ∈ (normalizeWhitespace x).getLast?, pyIsSpace c = false) := by
  have hmem : ∀ c ∈ normalizeWhitespace x,
      c = '\n' ∨ c = ' ' ∨ c ∈ normalizeNewlines x := by
    intro c hc
    have h4 := pyStrip_mem _ c hc
    rcases collapseNlRuns_go_mem 0 _ c h4 with h | h
    · exact Or.inl h
    · rcases collapseSpaceRuns_go_mem false _ c h with h2 | h2
      · exact Or.inr (Or.inl h2)
      · rcases collapseTFV_go_mem false _ c h2 with h3 | h3
        · exact Or.inr (Or.inl h3)
        · exact Or.inr (Or.inr h3)
  refine ⟨?_, ?_, ?_, ?_, ?_, ?_⟩
  · intro c hc
    rcases hmem c hc with h | h | h
    · subst h; decide
    · subst h; decide
    · exact normalizeNewlines_no_cr x c h
  · intro c hc
    have h4 := pyStrip_mem _ c hc
    rcases collapseNlRuns_go_mem 0 _ c h4 with h | h
    · subst h; decide
    · rcases collapseSpaceRuns_go_mem false _ c h with h2 | h2
      · subst h2; decide
      · exact collapseTFV_go_no_tfv false _ c h2
  · exact chain'_pyStrip _
      (collapseNlRuns_go_chain _ 0 (collapseSpaceRuns_go_chain _ false))
  · exact noTripleNl_pyStrip _ (collapseNlRuns_go_noTriple _ 0)
  · intro c hc
    unfold normalizeWhitespace pyStrip at hc
    rcases dropTrailingSpace_head
        ((collapseNlRuns (collapseSpaceRuns (collapseTFV
          (normalizeNewlines x)))).dropWhile pyIsSpace) with h | h
    · rw [h] at hc
      simp at hc
    · rw [h] at hc
      exact dropWhile_head_not pyIsSpace _ c hc
  · intro c hc
    unfold normalizeWhitespace pyStrip at hc
    exact dropTrailingSpace_last _ c hc

theorem collapseTFV_id (s : List Char) (h : ∀ c ∈ s, isTFV c = false) :
    collapseTFV s = s := by
  show collapseTFV.go false s = s
  induction s with
  | nil => rfl
  | cons c rest ih =>
    dsimp [collapseTFV.go]
    rw [if_neg (by simp [h c (by simp)])]
    rw [ih (fun e he => h e (by simp [he]))]

theorem collapseSpaceRuns_id (s : List Char) (h : List.Chain' SpacedOk s) :
    collapseSpaceRuns s = s := by
  show collapseSpaceRuns.go false s = s
  induction s with
  | nil => rfl
  | cons c rest ih =>
    by_cases hc : isSpNb c
    · cases rest with
      | nil => simp [collapseSpaceRuns.go]
      | cons d tail =>
        have hd : isSpNb d = false := by
          rcases (List.chain'_cons'.mp h).1 d (by simp) with h2 | h2
          · rw [hc] at h2; cases h2
          · exact h2
        have h2 : collapseSpaceRuns.go false tail = tail := by
          have h3 := ih h.tail
          rw [collapseSpaceRuns_go_false_cons d tail hd] at h3
          exact (List.cons.inj h3).2
        simp [collapseSpaceRuns.go, hc, hd, h2]
    · rw [collapseSpaceRuns_go_false_cons c rest (by simpa using hc)]
      rw [ih h.tail]

theorem collapseNlRuns_go_id (s : List Char) :
    (noTripleNl s = true → collapseNlRuns.go 0 s = s) ∧
    (noTripleNl ('\n' :: s) = true → collapseNlRuns.go 1 s = '\n' :: s) ∧
    (noTripleNl ('\n' :: '\n' :: s) = true →
      collapseNlRuns.go 2 s = '\n' :: '\n' :: s) := by
  induction s with
  | nil =>
    refine ⟨fun _ => rfl, fun _ => rfl, fun _ => rfl⟩
  | cons c rest ih =>
    by_cases hc : c = '\n'
    · subst hc
      refine ⟨?_, ?_, ?_⟩
      · intro h
        have h1 : collapseNlRuns.go 0 ('\n' :: rest) = collapseNlRuns.go 1 rest := by
          simp [collapseNlRuns.go]
        rw [h1, ih.2.1 h]
      · intro h
        have h1 : collapseNlRuns.go 1 ('\n' :: rest) = collapseNlRuns.go 2 rest := by
          simp [collapseNlRuns.go]
        rw [h1, ih.2.2 h]
      · intro h
        simp [noTripleNl] at h
    · have hgo : ∀ r, collapseNlRuns.go r (c :: rest) =
          List.replicate (min r 2) '\n' ++ (c :: collapseNlRuns.go 0 rest) := by
        intro r
        simp [collapseNlRuns.go, hc]
      refine ⟨?_, ?_, ?_⟩
      · intro h
        rw [hgo 0]
        simp only [Nat.zero_min, List.replicate, List.nil_append]
        rw [ih.1 (noTripleNl_tail c rest h)]
      · intro h
        rw [hgo 1]
        have hr : noTripleNl rest = true :=
          noTripleNl_tail c rest (noTripleNl_tail '\n' (c :: rest) h)
        rw [ih.1 hr]
        rfl
      · intro h
        rw [hgo 2]
        have hr : noTripleNl rest = true :=
          noTripleNl_tail c rest (noTripleNl_tail '\n' (c :: rest)
            (noTripleNl_tail '\n' ('\n' :: c :: rest) h))
        rw [ih.1 hr]
        rfl

theorem collapseNlRuns_id (s : List Char) (h : noTripleNl s = true) :
    collapseNlRuns s = s :=
  (collapseNlRuns_go_id s).1 h

theorem dropTrailingSpace_cons_of_ne_nil (x : Char) (l : List Char)
    (hne : dropTrailingSpace l ≠ []) :
    dropTrailingSpace (x :: l) = x :: dropTrailingSpace l := by
  dsimp [dropTrailingSpace]
  rw [if_neg]
  simp [hne]

theorem dropTrailingSpace_id (l : List Char)
    (h : ∀ c ∈ l.getLast?, pyIsSpace c = false) : dropTrailingSpace l = l := by
  induction l with
  | nil => rfl
  | cons c rest ih =>
    cases rest with
    | nil =>
      have hc : pyIsSpace c = false := h c (by simp)
      simp [dropTrailingSpace, hc]
    | cons d tail =>
      have hr : dropTrailingSpace (d :: tail) = d :: tail := by
        refine ih ?_
        intro e he
        refine h e ?_
        rwa [List.getLast?_cons_cons]
      rw [dropTrailingSpace_cons_of_ne_nil c (d :: tail) (by rw [hr]; simp), hr]

theorem pyStrip_id (l : List Char)
    (hhead : ∀ c ∈ l.head?, pyIsSpace c = false)
    (hlast : ∀ c ∈ l.getLast?, pyIsSpace c = false) : pyStrip l = l := by
  have h1 : l.dropWhile pyIsSpace = l := by
    cases l with
    | nil => rfl
    | cons c rest =>
      exact List.dropWhile_cons_of_neg (by simp [hhead c (by simp)])
  rw [pyStrip, h1]
  exact dropTrailingSpace_id l hlast

/-- **C6, amended.** `clean_text_for_tts` is not idempotent in general (see
the counterexample), but its final whitespace-normalization stage is:
`_normalize_whitespace` applied twice equals `_normalize_whitespace`. -/
theorem C6_amended (s : List Char) :
    normalizeWhitespace (normalizeWhitespace s) = normalizeWhitespace s := by
  obtain ⟨h1, h2, h3, h4, h5, h6⟩ := normalizeNewlines_props s
  show pyStrip (collapseNlRuns (collapseSpaceRuns (collapseTFV
    (normalizeNewlines (normalizeWhitespace s))))) = normalizeWhitespace s
  rw [normalizeNewlines_id _ h1, collapseTFV_id _ h2,
    collapseSpaceRuns_id _ h3, collapseNlRuns_id _ h4, pyStrip_id _ h5 h6]

/-- **C6, counterexample.** `clean_text_for_tts` is not idempotent: on
`"b  c\nb c\nb c"` one pass only collapses the double space, making all three
lines equal; the second pass's repeated-header filter then deletes all of
them, so `clean(clean(x)) = "" ≠ clean(x)`. -/
theorem C6_counterexample :
    cleanTextForTts (cleanTextForTts ('b' :: ' ' :: ' ' :: 'c' :: '\n' ::
        'b' :: ' ' :: 'c' :: '\n' :: 'b' :: ' ' :: 'c' :: [])) ≠
      cleanTextForTts ('b' :: ' ' :: ' ' :: 'c' :: '\n' ::
        'b' :: ' ' :: 'c' :: '\n' :: 'b' :: ' ' :: 'c' :: []) := by
  decide

end WhitespaceIdempotence

section EmojiRange

/-!
Support for C10: every code point in `U+24C2 .. U+1F251` is removed by
`_strip_emojis`, and a text consisting only of such characters (all of which
are non-ASCII) is untouched by markdown stripping and then erased entirely.
-/

theorem uint32_le_toNat {a b : UInt32} (h : a ≤ b) : a.toNat ≤ b.toNat := h

/-- A character with code point at least `0x80` differs from any ASCII
character. -/
theorem ne_ascii_of_ge (c : Char) (h : (0x80 : UInt32) ≤ c.val) (d : Char)
    (hd : d.val.toNat < 128) : c ≠ d := by
  intro he
  have h1 : 128 ≤ c.val.toNat := uint32_le_toNat h
  rw [he] at h1
  omega

theorem pyIsDigit_false_of_ge (c : Char) (h : (0x80 : UInt32) ≤ c.val) :
    pyIsDigit c = false := by
  unfold pyIsDigit
  have h9 : ¬ (c ≤ '9') := by
    intro hle
    have h1 : 128 ≤ c.val.toNat := uint32_le_toNat h
    have h2 : c.val.toNat ≤ 57 := uint32_le_toNat (Char.le_def.mp hle)
    omega
  simp [h9]

theorem takeWhile_digits_nil (l : List Char)
    (hl : ∀ x ∈ l, (0x80 : UInt32) ≤ x.val) (n : Nat) :
    (List.drop n l).takeWhile pyIsDigit = [] := by
  cases hd : List.drop n l with
  | nil => rfl
  | cons b bs =>
    have hb : b ∈ l := List.drop_subset n l (by rw [hd]; simp)
    rw [List.takeWhile_cons_of_neg]
    simp [pyIsDigit_false_of_ge b (hl b hb)]

/-- One full `re.sub` pass leaves a string unchanged when the pattern can
never match (at any suffix). -/
theorem pySubGo_id (try_ : Option Char → List Char → Option (List Char × Nat))
    (P : Char → Prop)
    (htry : ∀ prev c rest, (∀ x ∈ c :: rest, P x) → try_ prev (c :: rest) = none)
    (s : List Char) (hs : ∀ x ∈ s, P x) :
    ∀ prev, pySubGo try_ 0 prev s = s := by
  induction s with
  | nil => intro prev; rfl
  | cons c rest ih =>
    intro prev
    have h := htry prev c rest hs
    dsimp [pySubGo]
    rw [h]
    rw [ih (fun x hx => hs x (List.mem_cons_of_mem c hx)) (some c)]

def NonAscii (c : Char) : Prop := (0x80 : UInt32) ≤ c.val

theorem tryCodeFence_none (prev : Option Char) (c : Char) (rest : List Char)
    (hs : ∀ x ∈ c :: rest, NonAscii x) : tryCodeFence prev (c :: rest) = none := by
  rw [tryCodeFence.eq_def]
  split
  · rename_i heq
    exfalso
    injection heq with h1 _
    exact ne_ascii_of_ge c (hs c (by simp)) '`' (by decide) h1
  · rfl

theorem tryTildeFence_none (prev : Option Char) (c : Char) (rest : List Char)
    (hs : ∀ x ∈ c :: rest, NonAscii x) : tryTildeFence prev (c :: rest) = none := by
  rw [tryTildeFence.eq_def]
  split
  · rename_i heq
    exfalso
    injection heq with h1 _
    exact ne_ascii_of_ge c (hs c (by simp)) '~' (by decide) h1
  · rfl

theorem tryInlineCode_none (prev : Option Char) (c : Char) (rest : List Char)
    (hs : ∀ x ∈ c :: rest, NonAscii x) : tryInlineCode prev (c :: rest) = none := by
  rw [tryInlineCode.eq_def]
  split
  · rename_i heq
    exfalso
    injection heq with h1 _
    exact ne_ascii_of_ge c (hs c (by simp)) '`' (by decide) h1
  · rfl

theorem tryLink_none (prev : Option Char) (c : Char) (rest : List Char)
    (hs : ∀ x ∈ c :: rest, NonAscii x) : tryLink prev (c :: rest) = none := by
  rw [tryLink.eq_def]
  split
  · rename_i heq
    exfalso
    injection heq with h1 _
    exact ne_ascii_of_ge c (hs c (by simp)) '[' (by decide) h1
  · rfl

theorem tryRefLink_none (prev : Option Char) (c : Char) (rest : List Char)
    (hs : ∀ x ∈ c :: rest, NonAscii x) : tryRefLink prev (c :: rest) = none := by
  rw [tryRefLink.eq_def]
  split
  · rename_i heq
    exfalso
    injection heq with h1 _
    exact ne_ascii_of_ge c (hs c (by simp)) '[' (by decide) h1
  · rfl

theorem tryImage_none (prev : Option Char) (c : Char) (rest : List Char)
    (hs : ∀ x ∈ c :: rest, NonAscii x) : tryImage prev (c :: rest) = none := by
  rw [tryImage.eq_def]
  split
  · rename_i heq
    exfalso
    injection heq with h1 _
    exact ne_ascii_of_ge c (hs c (by simp)) '!' (by decide) h1
  · rfl

theorem tryHeader_none (prev : Option Char) (c : Char) (rest : List Char)
    (hs : ∀ x ∈ c :: rest, NonAscii x) : tryHeader prev (c :: rest) = none := by
  rw [tryHeader.eq_def]
  split
  · rename_i heq
    exfalso
    injection heq with h1 _
    exact ne_ascii_of_ge c (hs c (by simp)) '#' (by decide) h1
  · rfl

theorem tryBoldStar_none (prev : Option Char) (c : Char) (rest : List Char)
    (hs : ∀ x ∈ c :: rest, NonAscii x) : tryBoldStar prev (c :: rest) = none := by
  rw [tryBoldStar.eq_def]
  split
  · rename_i heq
    exfalso
    injection heq with h1 _
    exact ne_ascii_of_ge c (hs c (by simp)) '*' (by decide) h1
  · rfl

theorem tryBoldUnderscore_none (prev : Option Char) (c : Char) (rest : List Char)
    (hs : ∀ x ∈ c :: rest, NonAscii x) :
    tryBoldUnderscore prev (c :: rest) = none := by
  rw [tryBoldUnderscore.eq_def]
  split
  · rename_i heq
    exfalso
    injection heq with h1 _
    exact ne_ascii_of_ge c (hs c (by simp)) '_' (by decide) h1
  · rfl

theorem tryItalicStar_none (prev : Option Char) (c : Char) (rest : List Char)
    (hs : ∀ x ∈ c :: rest, NonAscii x) : tryItalicStar prev (c :: rest) = none := by
  rw [tryItalicStar.eq_def]
  split
  · rename_i heq
    exfalso
    injection heq with h1 _
    exact ne_ascii_of_ge c (hs c (by simp)) '*' (by decide) h1
  · rfl

theorem tryItalicUnderscore_none (prev : Option Char) (c : Char) (rest : List Char)
    (hs : ∀ x ∈ c :: rest, NonAscii x) :
    tryItalicUnderscore prev (c :: rest) = none := by
  rw [tryItalicUnderscore.eq_def]
  split
  · rename_i heq
    exfalso
    injection heq with h1 _
    exact ne_ascii_of_ge c (hs c (by simp)) '_' (by decide) h1
  · rfl

theorem tryStrike_none (prev : Option Char) (c : Char) (rest : List Char)
    (hs : ∀ x ∈ c :: rest, NonAscii x) : tryStrike prev (c :: rest) = none := by
  rw [tryStrike.eq_def]
  split
  · rename_i heq
    exfalso
    injection heq with h1 _
    exact ne_ascii_of_ge c (hs c (by simp)) '~' (by decide) h1
  · rfl

theorem tryBlockquote_none (prev : Option Char) (c : Char) (rest : List Char)
    (hs : ∀ x ∈ c :: rest, NonAscii x) : tryBlockquote prev (c :: rest) = none := by
  rw [tryBlockquote.eq_def]
  split
  · rename_i heq
    exfalso
    injection heq with h1 _
    exact ne_ascii_of_ge c (hs c (by simp)) '>' (by decide) h1
  · rfl

theorem tryHtml_none (prev : Option Char) (c : Char) (rest : List Char)
    (hs : ∀ x ∈ c :: rest, NonAscii x) : tryHtml prev (c :: rest) = none := by
  rw [tryHtml.eq_def]
  split
  · rename_i heq
    exfalso
    injection heq with h1 _
    exact ne_ascii_of_ge c (hs c (by simp)) '<' (by decide) h1
  · rfl

theorem isHrChar_false_of_ge (c : Char) (h : NonAscii c) : isHrChar c = false := by
  have h1 := ne_ascii_of_ge c h '-' (by decide)
  have h2 := ne_ascii_of_ge c h '*' (by decide)
  have h3 := ne_ascii_of_ge c h '_' (by decide)
  simp [isHrChar, h1, h2, h3]

theorem isBullet_false_of_ge (c : Char) (h : NonAscii c) : isBullet c = false := by
  have h1 := ne_ascii_of_ge c h '-' (by decide)
  have h2 := ne_ascii_of_ge c h '*' (by decide)
  have h3 := ne_ascii_of_ge c h '+' (by decide)
  simp [isBullet, h1, h2, h3]

theorem tryHRule_none (prev : Option Char) (c : Char) (rest : List Char)
    (hs : ∀ x ∈ c :: rest, NonAscii x) : tryHRule prev (c :: rest) = none := by
  rw [tryHRule.eq_def]
  split
  · rename_i heq
    injection heq with h1 h2
    subst h1
    subst h2
    rw [if_neg]
    simp [isHrChar_false_of_ge c (hs c (by simp))]
  · rfl

theorem tryUList_none (prev : Option Char) (c : Char) (rest : List Char)
    (hs : ∀ x ∈ c :: rest, NonAscii x) : tryUList prev (c :: rest) = none := by
  rw [tryUList.eq_def]
  split
  · rename_i heq
    injection heq with h1 h2
    subst h1
    subst h2
    split
    · dsimp only
      split
      · rename_i b rest2 hdrop
        have hb : b ∈ c :: rest :=
          List.drop_subset _ _ (by rw [hdrop]; simp)
        rw [if_neg]
        simp [isBullet_false_of_ge b (hs b hb)]
      · rfl
    · rfl
  · rfl

theorem tryOList_none (prev : Option Char) (c : Char) (rest : List Char)
    (hs : ∀ x ∈ c :: rest, NonAscii x) : tryOList prev (c :: rest) = none := by
  rw [tryOList.eq_def]
  split
  · rename_i heq
    injection heq with h1 h2
    subst h1
    subst h2
    split
    · dsimp only
      rw [if_pos]
      rw [takeWhile_digits_nil (c :: rest) (fun x hx => hs x hx) _]
      rfl
    · rfl
  · rfl

theorem tryTaskList_none (prev : Option Char) (c : Char) (rest : List Char)
    (hs : ∀ x ∈ c :: rest, NonAscii x) : tryTaskList prev (c :: rest) = none := by
  rw [tryTaskList.eq_def]
  split
  · rename_i heq
    injection heq with h1 h2
    subst h1
    subst h2
    split
    · dsimp only
      split
      · rename_i rest2 hdrop
        exfalso
        have hb : '-' ∈ c :: rest :=
          List.drop_subset _ _ (by rw [hdrop]; simp)
        have h3 : (0x80 : UInt32) ≤ Char.val '-' := hs '-' hb
        revert h3
        decide
      · rfl
    · rfl
  · rfl

theorem applySub_id (try_ : Option Char → List Char → Option (List Char × Nat))
    (htry : ∀ prev c rest, (∀ x ∈ c :: rest, NonAscii x) →
      try_ prev (c :: rest) = none)
    (s : List Char) (hs : ∀ x ∈ s, NonAscii x) : applySub try_ s = s :=
  pySubGo_id try_ NonAscii htry s hs none

theorem stripMarkdownFormatting_id (s : List Char)
    (hs : ∀ x ∈ s, NonAscii x) : stripMarkdownFormatting s = s := by
  unfold stripMarkdownFormatting
  rw [applySub_id tryCodeFence tryCodeFence_none s hs,
    applySub_id tryTildeFence tryTildeFence_none s hs,
    applySub_id tryInlineCode tryInlineCode_none s hs,
    applySub_id tryLink tryLink_none s hs,
    applySub_id tryRefLink tryRefLink_none s hs,
    applySub_id tryImage tryImage_none s hs,
    applySub_id tryHeader tryHeader_none s hs,
    applySub_id tryBoldStar tryBoldStar_none s hs,
    applySub_id tryBoldUnderscore tryBoldUnderscore_none s hs,
    applySub_id tryItalicStar tryItalicStar_none s hs,
    applySub_id tryItalicUnderscore tryItalicUnderscore_none s hs,
    applySub_id tryStrike tryStrike_none s hs,
    applySub_id tryBlockquote tryBlockquote_none s hs,
    applySub_id tryHRule tryHRule_none s hs,
    applySub_id tryUList tryUList_none s hs,
    applySub_id tryOList tryOList_none s hs,
    applySub_id tryTaskList tryTaskList_none s hs,
    applySub_id tryHtml tryHtml_none s hs]

/-- **C10.** The emoji-stripping stage removes every code point in the
contiguous range `U+24C2 .. U+1F251` (which covers all CJK unified
ideographs, kana and Hangul), and consequently `clean_text_for_tts` maps
every string consisting solely of such characters to the empty string. -/
theorem C10_emoji_range :
    (∀ c : Char, (0x24C2 : UInt32) ≤ c.val → c.val ≤ (0x1F251 : UInt32) →
      isEmojiChar c = true) ∧
    (∀ s : List Char,
      (∀ c ∈ s, (0x24C2 : UInt32) ≤ c.val ∧ c.val ≤ (0x1F251 : UInt32)) →
      cleanTextForTts s = []) := by
  have hclass : ∀ c : Char, (0x24C2 : UInt32) ≤ c.val →
      c.val ≤ (0x1F251 : UInt32) → isEmojiChar c = true := by
    intro c h1 h2
    simp [isEmojiChar, h1, h2]
  refine ⟨hclass, ?_⟩
  intro s hs
  have hs' : ∀ x ∈ s, NonAscii x := by
    intro x hx
    have h1 : 9410 ≤ x.val.toNat := uint32_le_toNat (hs x hx).1
    show 128 ≤ x.val.toNat
    omega
  unfold cleanTextForTts
  rw [stripMarkdownFormatting_id s hs']
  have hemoji : stripEmojis s = [] := by
    rw [stripEmojis]
    rw [List.filter_eq_nil_iff]
    intro a ha
    simp [hclass a (hs a ha).1 (hs a ha).2]
  rw [hemoji]
  rfl

/-- Witness for `C10_emoji_range`: a concrete string of Chinese ideographs is
cleaned to the empty string. -/
theorem C10_emoji_range_witness :
    cleanTextForTts ['你', '好'] = [] :=
  C10_emoji_range.2 ['你', '好'] (by decide)

end EmojiRange

section Handler

/-!
## `main.py` — the `synthesize_chunk` orchestration (lines 111-241)

External effects appear as explicit outcome values: model loading (lines
126-130), and the two bounded stages run on one-shot thread-pool executors
against the shared time budget (lines 141-204). `timeout` stands for
`fut.result(...)` raising `FuturesTimeout`, `failure msg` for any other
exception with `str(exc) = msg`. The request is assumed validated (doc_id,
paragraph_id and text present); the response `version` field and the
`inference_ms` wall-clock block are not modeled.
-/

/-- A token with native timestamps as produced by `_KokoroWrapper.synthesize`
(`model_loader.py` lines 123-129). -/
structure NativeToken where
  text : List Char
  start_ms : Int
  end_ms : Int
deriving DecidableEq, Repr

/-- The tuple shapes a synthesis result can take at the unpacking check of
`main.py` line 158 (`isinstance(res, tuple) and len(res) == 2`). The bundled
`_KokoroWrapper.synthesize` always returns the 3-tuple
`(audio, 24000, all_tokens)` (`model_loader.py` lines 135-139). -/
inductive KokoroRes where
  | pair (audio : List Int) (outSr : Int)
  | triple (audio : List Int) (outSr : Int) (tokens : List NativeToken)
deriving DecidableEq, Repr

inductive TtsOutcome where
  | timeout
  | failure (msg : List Char)
  | success (res : KokoroRes)
deriving DecidableEq, Repr

inductive AlignOutcome where
  | timeout
  | failure (msg : List Char)
  | completes
deriving DecidableEq, Repr

inductive LoadOutcome where
  | ok
  | failure (msg : List Char)
deriving DecidableEq, Repr

/-- The success body of a `synthesize_chunk` response (`main.py` lines
214-224); audio is the PCM sample list (`audio_base64` encodes exactly these
samples), `tts_warning` is present only on the degraded path. -/
structure OkBody where
  cleaned_text : List Char
  audio : List Int
  sample_rate : Nat
  timings : List Timing
  tts_warning : Option (List Char)
deriving DecidableEq, Repr

/-- A handler response: the `ok: true` body or the error envelope
`{ok: false, code, message}` (`main.py` lines 27-34). -/
inductive Response where
  | ok (body : OkBody)
  | err (code : List Char) (msg : List Char)
deriving DecidableEq, Repr

/-- `int(max(1.0, min(6.0, len(text) / 14.0)) * sample_rate)` (`main.py`
lines 182-183): the exact rational value `clamp(L/14, 1, 6) · sr` equals
`clamp(L, 14, 84) · sr / 14`, and truncating the non-negative result is Nat
floor division. -/
def fallbackNumSamples (textLen : Nat) (sampleRate : Nat) : Nat :=
  max 14 (min 84 textLen) * sampleRate / 14

/-- The message of the conversion error raised at `main.py` line 167 when a
non-2-tuple result is passed whole to `np.asarray(..., dtype=float32)` (the
exact numpy wording is abstracted; the claims only use that it is
non-null). -/
def asarrayErrorMsg : List Char :=
  "could not convert tuple to float32 array".toList

/-- The synthesis stage of `handler` (`main.py` lines 141-186): a timeout
aborts the request (`none`); any other exception falls back to
`clamp(len(text)/14, 1, 6)` seconds of zero samples plus the warning; a
2-tuple result is unpacked as `(audio, out_sr)` (best-effort resampling at
lines 169-177 does not affect any claim and is modeled as keeping the
samples); any other result — in particular the wrapper's 3-tuple — is passed
whole to `np.asarray` at line 167, which raises, taking the same fallback
path. -/
def runTtsStage (textLen : Nat) (sampleRate : Nat) :
    TtsOutcome → Option (List Int × Option (List Char))
  | .timeout => none
  | .failure msg =>
    some (List.replicate (fallbackNumSamples textLen sampleRate) 0, some msg)
  | .success (.pair audio _) => some (audio, none)
  | .success (.triple _ _ _) =>
    some (List.replicate (fallbackNumSamples textLen sampleRate) 0,
      some asarrayErrorMsg)

/-- The `synthesize_chunk` branch of `handler` (`main.py` lines 111-241) for
a validated request. -/
def synthesizeChunk (text : List Char) (sampleRate : Nat) (load : LoadOutcome)
    (tts : TtsOutcome) (alignO : AlignOutcome) : Response :=
  let cleaned := cleanTextForTts text
  match load with
  | .failure msg => .err "ModelLoad".toList msg
  | .ok =>
    match runTtsStage text.length sampleRate tts with
    | none => .err "Timeout".toList "tts_timeout".toList
    | some (audio, warning) =>
      match alignO with
      | .timeout => .err "Timeout".toList "align_timeout".toList
      | .failure msg => .err "AlignError".toList msg
      | .completes =>
        .ok { cleaned_text := cleaned
              audio := audio
              sample_rate := sampleRate
              timings := alignWordsCtc cleaned audio.length (sampleRate : Int)
              tts_warning := warning }

/-- **C4, counterexample.** The claim "whenever the synthesis stage fails
with a non-timeout error the handler still returns `ok: true`" is false as
stated: if the subsequent timing stage then exceeds the budget, the request
aborts with the Timeout envelope. -/
theorem C4_counterexample :
    synthesizeChunk "hello".toList 8 .ok (.failure "boom".toList) .timeout =
      .err "Timeout".toList "align_timeout".toList := rfl

/-- **C4, amended.** When the synthesis stage fails with a non-timeout error
and the subsequent timing stage completes within budget, the handler returns
`ok: true` with a zero-amplitude buffer of `clamp(len(text)/14, 1, 6)`
seconds at the requested sample rate and the failure message as
`tts_warning`; and this degraded path is the only way a stage failure does
not abort the request — every `ok` response has model loading succeeded,
synthesis not timed out, and timing completed. -/
theorem C4_amended (text : List Char) (sampleRate : Nat) (msg : List Char) :
    synthesizeChunk text sampleRate .ok (.failure msg) .completes =
      .ok { cleaned_text := cleanTextForTts text
            audio := List.replicate (fallbackNumSamples text.length sampleRate) 0
            sample_rate := sampleRate
            timings := alignWordsCtc (cleanTextForTts text)
              (List.replicate (fallbackNumSamples text.length sampleRate)
                (0 : Int)).length (sampleRate : Int)
            tts_warning := some msg } ∧
    (∀ load tts alignO b,
      synthesizeChunk text sampleRate load tts alignO = .ok b →
        load = .ok ∧ tts ≠ .timeout ∧ alignO = .completes) := by
  constructor
  · rfl
  · intro load tts alignO b h
    cases load with
    | failure m => simp [synthesizeChunk] at h
    | ok =>
      cases tts with
      | timeout => simp [synthesizeChunk, runTtsStage] at h
      | failure m =>
        cases alignO with
        | timeout => simp [synthesizeChunk, runTtsStage] at h
        | failure m2 => simp [synthesizeChunk, runTtsStage] at h
        | completes => exact ⟨rfl, by simp, rfl⟩
      | success res =>
        cases res with
        | pair audio outSr =>
          cases alignO with
          | timeout => simp [synthesizeChunk, runTtsStage] at h
          | failure m2 => simp [synthesizeChunk, runTtsStage] at h
          | completes => exact ⟨rfl, by simp, rfl⟩
        | triple audio outSr toks =>
          cases alignO with
          | timeout => simp [synthesizeChunk, runTtsStage] at h
          | failure m2 => simp [synthesizeChunk, runTtsStage] at h
          | completes => exact ⟨rfl, by simp, rfl⟩

/-- Witness for `C4_amended`: the degraded-success response at a concrete
request. -/
theorem C4_amended_witness :
    synthesizeChunk "hi".toList 8 .ok (.failure "boom".toList) .completes =
      .ok { cleaned_text := cleanTextForTts "hi".toList
            audio := List.replicate (fallbackNumSamples "hi".toList.length 8) 0
            sample_rate := 8
            timings := alignWordsCtc (cleanTextForTts "hi".toList)
              (List.replicate (fallbackNumSamples "hi".toList.length 8)
                (0 : Int)).length (8 : Int)
            tts_warning := some "boom".toList } :=
  (C4_amended "hi".toList 8 "boom".toList).1

/-- **C5.** If either bounded stage exceeds its budget the handler returns
exactly the error envelope `{ok: false, code: "Timeout"}` (no partial
results); in particular a synthesis timeout is never degraded into a success
response, and an alignment timeout aborts even when synthesis already
produced audio or a fallback. -/
theorem C5_timeout_envelope (text : List Char) (sampleRate : Nat) :
    (∀ alignO, synthesizeChunk text sampleRate .ok .timeout alignO =
      .err "Timeout".toList "tts_timeout".toList) ∧
    (∀ tts, tts ≠ TtsOutcome.timeout →
      synthesizeChunk text sampleRate .ok tts .timeout =
        .err "Timeout".toList "align_timeout".toList) := by
  constructor
  · intro alignO
    rfl
  · intro tts htts
    cases tts with
    | timeout => exact absurd rfl htts
    | failure msg => rfl
    | success res => cases res <;> rfl

/-- Witness for `C5_timeout_envelope`: both conjuncts at a concrete
request. -/
theorem C5_timeout_envelope_witness :
    synthesizeChunk "hi".toList 8 .ok .timeout .completes =
      .err "Timeout".toList "tts_timeout".toList ∧
    synthesizeChunk "hi".toList 8 .ok (.failure "boom".toList) .timeout =
      .err "Timeout".toList "align_timeout".toList :=
  ⟨(C5_timeout_envelope "hi".toList 8).1 .completes,
   (C5_timeout_envelope "hi".toList 8).2 (.failure "boom".toList) (by decide)⟩

/-- **C9 (code-bug evaluation).** The spec says native word tokens returned
by the synthesis capability are formatted directly (offset walk, timestamps
passed through). In the code, `_KokoroWrapper.synthesize` always returns the
3-tuple `(audio, 24000, tokens)`, but `main.py` line 158 only unpacks
2-tuples; the 3-tuple is passed whole to `np.asarray`, which raises, so the
handler degrades to the silence fallback with a `tts_warning` and the
heuristic timings — the native timestamps (here 1-2 ms and 3-4 ms) never
reach the response, and no offset-walking code exists in the handler. -/
theorem C9_native_tokens_unused :
    synthesizeChunk "hello world".toList 8 .ok
      (.success (.triple (List.replicate 100 7) 24000
        [{ text := "hello".toList, start_ms := 1, end_ms := 2 },
         { text := "world".toList, start_ms := 3, end_ms := 4 }])) .completes =
    .ok { cleaned_text := "hello world".toList
          audio := List.replicate 8 0
          sample_rate := 8
          timings := [
            { word := "hello".toList, start_ms := 0, end_ms := 500,
              char_start := 0, char_end := 5 },
            { word := "world".toList, start_ms := 500, end_ms := 1000,
              char_start := 6, char_end := 11 }]
          tts_warning := some asarrayErrorMsg } := by
  decide

end Handler

end ReadAloud
